import Mathlib

/-!
Verification of the KITE moment-estimation engine (C++ sources under `Src/`
and the unnamed simulation translation units) against its natural-language
specification.

The shallow embedding follows the C++ sources:

* `KPM_Vector<T,2>::Multiply` (KPM_Vector2D.hpp) is embedded as an explicit
  list of writes (`KOp`) to the freshly selected ring-buffer column, replayed
  in program order by `applyOps`.  All arithmetic reads inside `Multiply` go
  through the predecessor columns (`phiM1`, `phiM2`), which the sweep never
  writes, so the value carried by each generated write is a constant of the
  old state.
* `Exchange_Boundaries` is embedded as a pure two-pass transformation of the
  family of per-thread arrays (the two OpenMP barriers per axis make each
  axis pass a function of the state left by the previous pass).
* The moment post-processing (`store_gamma`, `store_gamma3D`), the Welford
  running mean, `process_string` and the `main` exit-code logic are embedded
  directly as pure functions.

The scalar type is a parameter `K` (the C++ code is templated over the
scalar `T`); theorems instantiate it at `ℂ`, witnesses at `ℚ`, keeping every
definition executable.  Machine indices are `ℕ`/`ℤ` (C++ `size_t` values and
`ptrdiff_t` pointer offsets).
-/

/-- `NGHOSTS` from main.cpp: the ghost-halo width. -/
def NGHOSTS : ℕ := 2

/-- One write performed by `Multiply` on the output column `phi0`:
`set i v` is an assignment `phi0[i] = v` (tile initialization, vacancy
zeroing), `add i v` is an accumulation `phi0[i] += v` (on-site, hopping,
structural-disorder and border contributions). -/
inductive KOp (K : Type) where
  | set (i : ℤ) (v : K)
  | add (i : ℤ) (v : K)

section OpMachinery

variable {K : Type} [Field K]

/-- The cell a write targets. -/
def KOp.target : KOp K → ℤ
  | .set i _ => i
  | .add i _ => i

/-- Replay one write on a column. -/
def applyOp (f : ℤ → K) : KOp K → ℤ → K
  | .set i v => Function.update f i v
  | .add i v => Function.update f i (f i + v)

/-- Replay a list of writes in program order. -/
def applyOps (f : ℤ → K) (ops : List (KOp K)) : ℤ → K :=
  ops.foldl applyOp f

/-- Sum of the values of the `add` writes that target `s` (the `set` writes
contribute nothing). -/
def sumAt (s : ℤ) (ops : List (KOp K)) : K :=
  (ops.map fun op =>
    match op with
    | .set _ _ => 0
    | .add i v => if i = s then v else 0).sum

/-- The Welford running-mean step used by every moment accumulator:
`mu += (x - mu)/(average + 1)` with `average` the number of samples already
folded in (Simulation.hpp `recursive_KPM`, Gamma1D/Gamma2D/Gamma3D). -/
def welfordStep (mu x : K) (average : ℕ) : K :=
  mu + (x - mu) / (average + 1)

/-- Folding a whole run of samples into the running mean, starting from the
zeroed accumulator and `average = 0`, incrementing `average` once per
sample. -/
def welfordRun (xs : List K) : K :=
  (xs.foldl (fun p x => (welfordStep p.1 x p.2, p.2 + 1)) ((0 : K), (0 : ℕ))).1

end OpMachinery

/-- `process_string` (Simulation.hpp): the comma splitter.  The C++ loop
`while(end_pos != -1) { end_pos = find(','); push substr; drop prefix }`
splits the string on every comma and keeps empty factors, yielding one more
factor than there are commas (`""` gives `[""]`, `","` gives `["",""]`). -/
def splitCommas : List Char → List (List Char)
  | [] => [[]]
  | c :: rest =>
    if c = ',' then [] :: splitCommas rest
    else
      match splitCommas rest with
      | [] => [[c]]
      | g :: gs => (c :: g) :: gs

/-- `process_string` (Simulation.hpp): one factor's character map.  `'x'`
maps to axis 0 and `'y'` to axis 1; any other character reaches the
`"Please enter a valid expression"` branch, which aborts the job
(modelled as `none`). -/
def mapFactor : List Char → Option (List ℕ)
  | [] => some []
  | c :: rest =>
    if c = 'x' then (mapFactor rest).map (fun l => 0 :: l)
    else if c = 'y' then (mapFactor rest).map (fun l => 1 :: l)
    else none

/-- Mapping every factor in order, aborting as soon as one factor holds an
illegal character. -/
def mapFactors : List (List Char) → Option (List (List ℕ))
  | [] => some []
  | f :: rest =>
    match mapFactor f, mapFactors rest with
    | some a, some b => some (a :: b)
    | _, _ => none

/-- `Simulation<T,D>::process_string` (Simulation.hpp): split the direction
string on commas, then map each factor to its list of axis indices, aborting
on any character other than `x`, `y` and the comma. -/
def processString (s : List Char) : Option (List (List ℕ)) :=
  mapFactors (splitCommas s)

/-- The inputs `main` (main.cpp) reads from the configuration container
before dispatching: `/IS_COMPLEX`, `/PRECISION`, `/DIM` and the optional
`/Hamiltonian/MagneticField` (0 when absent). -/
structure MainInput where
  isComplex : ℤ
  precision : ℤ
  dim : ℤ
  magneticField : ℤ

/-- The dispatch index `dim - 1 + 3*precision + is_complex*3*3` of main.cpp. -/
def mainIndex (c : MainInput) : ℤ :=
  c.dim - 1 + 3 * c.precision + c.isComplex * 3 * 3

/-- The process exit code of `main` (main.cpp): `exit(1)` when a magnetic
field is requested with real amplitudes; `exit(0)` when `dim`, `precision`
or `is_complex` is out of range and on the uninstantiated `default:` cases;
`return 1` after a `GlobalSimulation` run completes (cases 1, 4, 12, 13, 14
are the instantiated template combinations). -/
def mainExitCode (c : MainInput) : ℤ :=
  if c.magneticField = 1 ∧ c.isComplex = 0 then 1
  else if c.dim < 1 ∨ 3 < c.dim then 0
  else if c.precision < 0 ∨ 2 < c.precision then 0
  else if c.isComplex < 0 ∨ 1 < c.isComplex then 0
  else if mainIndex c = 1 ∨ mainIndex c = 4 ∨ mainIndex c = 12 ∨
          mainIndex c = 13 ∨ mainIndex c = 14 then 1
  else 0

/-- An internal bond of a structural-disorder pattern: the C++ parallel
arrays `element1[k]`, `element2[k]`, `hopping[k]` zipped into one record. -/
structure DefBond (K : Type) where
  e1 : ℕ
  e2 : ℕ
  t : K

/-- An internal on-site term of a structural-disorder pattern: the parallel
arrays `element[k]`, `U[k]` zipped. -/
structure DefOnsite (K : Type) where
  e : ℕ
  u : K

/-- A tile-border bond of a pattern: `border_element1[i]`,
`border_element2[i]`, `border_hopping[i]` zipped. -/
structure BorderBond (K : Type) where
  i1 : ℕ
  i2 : ℕ
  t : K

/-- A tile-border on-site term of a pattern: `border_element[i]`,
`border_U[i]` zipped. -/
structure BorderOnsite (K : Type) where
  i1 : ℕ
  u : K

/-- One structural-disorder pattern (an element of `h.hd`): per-tile anchor
positions, node offsets, internal bonds and on-sites, and the border lists
applied globally after the tile sweep. -/
structure Defect (K : Type) where
  position : ℕ → List ℕ
  nodePos : ℕ → ℤ
  bonds : List (DefBond K)
  onsites : List (DefOnsite K)
  borderBonds : List (BorderBond K)
  borderOnsites : List (BorderOnsite K)

/-- The data `KPM_Vector<T,2>::Multiply` reads from the lattice `r` and the
Hamiltonian `h`.  `gYrow`/`gXY` stand for `r.convertCoordinates` (the
local-to-global coordinate maps, built by LatticeStructure.hpp which is not
among the staged sources): `gYrow` gives the global axis-1 coordinate of a
local row, `gXY` the global coordinate pair of a local site index.  `pex`
stands for the template member `peierls2`: for complex `T` it is
`φ ↦ exp(i·φ)`, for real `T` it is constantly `1`.  The vector-potential
entries `vect_pot(a,b)` are kept as exact rationals so that every definition
stays executable. -/
structure Ham2D (K : Type) where
  L0 : ℕ
  L1 : ℕ
  Orb : ℕ
  S : ℕ
  lStr0 : ℕ
  lStr1 : ℕ
  Nd : ℕ
  A00 : ℚ
  A01 : ℚ
  A10 : ℚ
  A11 : ℚ
  gYrow : ℕ → ℤ
  gXY : ℤ → ℤ × ℤ
  pex : ℚ → K
  nHop : ℕ → ℕ
  hopD : ℕ → ℕ → ℤ
  hopT : ℕ → ℕ → K
  hopDx : ℕ → ℕ → ℤ
  andersonAddr : ℕ → ℤ
  uAnderson : ℤ → K
  uOrbital : ℕ → K
  defects : List (Defect K)
  cmi : List ℕ
  cm : ℕ → Bool
  vacTile : ℕ → List ℕ
  vwd : List ℕ

section MultiplyModel

variable {K : Type} [Field K]

/-- The linear site index `io * x.basis[2] + i1 * x.basis[1] + i0` of local
coordinates `(i0, i1, io)` (Coordinates over `r.Ld`, row-major with the
orbital slowest: `basis[1] = Ld[0]`, `basis[2] = Ld[0]*Ld[1]`). -/
def cellIdx (c : Ham2D K) (x y io : ℕ) : ℕ :=
  io * (c.L0 * c.L1) + y * c.L0 + x

/-- The Peierls phase of a structural bond from local site `k1` to `k2`
(`Multiply`, KPM_Vector2D.hpp): `(g2 − g1)ᵀ · vect_pot · g1` on the global
coordinates. -/
def sphase (c : Ham2D K) (k1 k2 : ℤ) : ℚ :=
  (((c.gXY k2).1 - (c.gXY k1).1 : ℤ) : ℚ) *
      (c.A00 * ((c.gXY k1).1 : ℚ) + c.A01 * ((c.gXY k1).2 : ℚ)) +
    (((c.gXY k2).2 - (c.gXY k1).2 : ℤ) : ℚ) *
      (c.A10 * ((c.gXY k1).1 : ℚ) + c.A11 * ((c.gXY k1).2 : ℚ))

/-- The cells of row `r` of tile `(tx, ty)` for orbital `io` in sweep order:
`j0 + r*std + k` for `k < STRIDE`, where `j0` is the tile's base index. -/
def rowCells (c : Ham2D K) (tx ty r io : ℕ) : List ℕ :=
  (List.range c.S).map fun k =>
    cellIdx c (NGHOSTS + tx * c.S + k) (NGHOSTS + ty * c.S + r) io

/-- All cells of tile `(tx, ty)` for orbital `io`, row-major as the sweep
visits them. -/
def tileCellsList (c : Ham2D K) (tx ty io : ℕ) : List ℕ :=
  (List.range c.S).flatMap fun r => rowCells c tx ty r io

/-- Tile initialization `phi0[i] = -value_type(MULT) * phiM2[i]` over one
tile and orbital. -/
def initOps (c : Ham2D K) (M : ℕ) (ψ2 : ℤ → K) (tx ty io : ℕ) : List (KOp K) :=
  (tileCellsList c tx ty io).map fun (i : ℕ) => KOp.set (i : ℤ) (-(M : K) * ψ2 (i : ℤ))

/-- The Anderson on-site pass: per-site table when
`Anderson_orb_address[io] ≥ 0` (`phi0[i] += (MULT+1)*phiM1[i]*U_Anderson[i-dd]`
with `dd = (address - io)*r.Nd`), shared per-orbital value when the address
is `-1`, nothing otherwise. -/
def andersonOps (c : Ham2D K) (M : ℕ) (ψ1 : ℤ → K) (tx ty io : ℕ) : List (KOp K) :=
  if 0 ≤ c.andersonAddr io then
    (tileCellsList c tx ty io).map fun (i : ℕ) =>
      KOp.add (i : ℤ)
        (((M : K) + 1) * ψ1 (i : ℤ) *
          c.uAnderson ((i : ℤ) - (c.andersonAddr io - (io : ℤ)) * (c.Nd : ℤ)))
  else if c.andersonAddr io = -1 then
    (tileCellsList c tx ty io).map fun (i : ℕ) =>
      KOp.add (i : ℤ) (((M : K) + 1) * ψ1 (i : ℤ) * c.uOrbital io)
  else []

/-- The regular-hopping pass: for each hopping `ib` of orbital `io` and each
row of the tile, `phi0[i] += (MULT+1)*hopping*phiM1[i+d1]*peierls2(phase)`
with the row phase `vee(0) * global.coord[1] * vect_pot(0,1)`. -/
def hopOps (c : Ham2D K) (M : ℕ) (ψ1 : ℤ → K) (tx ty io : ℕ) : List (KOp K) :=
  (List.range (c.nHop io)).flatMap fun ib =>
    (List.range c.S).flatMap fun r =>
      (rowCells c tx ty r io).map fun (i : ℕ) =>
        KOp.add (i : ℤ)
          (((M : K) + 1) * c.hopT ib io * ψ1 ((i : ℤ) + c.hopD ib io) *
            c.pex ((c.hopDx ib io : ℚ) * (c.gYrow (NGHOSTS + ty * c.S + r) : ℚ) * c.A01))

/-- The intra-tile structural-disorder pass of tile `istr`: for each pattern
and each anchor, the internal bonds
(`phi0[k1] += (MULT+1)*hopping[k]*phiM1[k2]*peierls2(phase)`) then the
internal on-sites (`phi0[k1] += (MULT+1)*U[k]*phiM1[k1]`). -/
def structOps (c : Ham2D K) (M : ℕ) (ψ1 : ℤ → K) (istr : ℕ) : List (KOp K) :=
  c.defects.flatMap fun d =>
    (d.position istr).flatMap fun (ip : ℕ) =>
      (d.bonds.map fun b =>
        KOp.add ((ip : ℤ) + d.nodePos b.e1)
          (((M : K) + 1) * b.t * ψ1 ((ip : ℤ) + d.nodePos b.e2) *
            c.pex (sphase c ((ip : ℤ) + d.nodePos b.e1) ((ip : ℤ) + d.nodePos b.e2)))) ++
      (d.onsites.map fun u =>
        KOp.add ((ip : ℤ) + d.nodePos u.e)
          (((M : K) + 1) * u.u * ψ1 ((ip : ℤ) + d.nodePos u.e)))

/-- The intra-tile vacancy zeroing `phi0[*k] = 0` over `h.hV.position.at(istr)`. -/
def vacOps (c : Ham2D K) (istr : ℕ) : List (KOp K) :=
  (c.vacTile istr).map fun (k : ℕ) => KOp.set (k : ℤ) 0

/-- One sweep tile `(tx, ty)` of `Multiply` (`istr = ty*lStr[0] + tx`): per
orbital the conditional initialization (`cross_mozaic.at(istr)`), the
Anderson pass and the hoppings; then the structural disorder of the tile;
then the tile's vacancy zeroing. -/
def tileOps (c : Ham2D K) (M : ℕ) (ψ1 ψ2 : ℤ → K) (tx ty : ℕ) : List (KOp K) :=
  ((List.range c.Orb).flatMap fun io =>
    (if c.cm (ty * c.lStr0 + tx) then initOps c M ψ2 tx ty io else []) ++
      andersonOps c M ψ1 tx ty io ++ hopOps c M ψ1 tx ty io) ++
    structOps c M ψ1 (ty * c.lStr0 + tx) ++ vacOps c (ty * c.lStr0 + tx)

/-- The pre-sweep initialization of the tiles listed in
`cross_mozaic_indexes`: each such tile (decoded as
`i0 = (istr % lStr[0])*STRIDE + NGHOSTS`, `i1 = (istr / lStr[0])*STRIDE +
NGHOSTS`) is set to `-MULT * phiM2` for every orbital. -/
def phase1Ops (c : Ham2D K) (M : ℕ) (ψ2 : ℤ → K) : List (KOp K) :=
  c.cmi.flatMap fun istr =>
    (List.range c.Orb).flatMap fun io =>
      initOps c M ψ2 (istr % c.lStr0) (istr / c.lStr0) io

/-- The post-sweep zeroing of `vacancies_with_defects`. -/
def vwdOps (c : Ham2D K) : List (KOp K) :=
  c.vwd.map fun (k : ℕ) => KOp.set (k : ℤ) 0

/-- The post-sweep border bonds
(`phi0[i1] += (MULT+1)*border_hopping[i]*phiM1[i2]*peierls2(phase)`). -/
def borderBondOps (c : Ham2D K) (M : ℕ) (ψ1 : ℤ → K) : List (KOp K) :=
  c.defects.flatMap fun d =>
    d.borderBonds.map fun b =>
      KOp.add (b.i1 : ℤ)
        (((M : K) + 1) * b.t * ψ1 (b.i2 : ℤ) * c.pex (sphase c (b.i1 : ℤ) (b.i2 : ℤ)))

/-- The post-sweep border on-sites
(`phi0[i1] += (MULT+1)*border_U[i]*phiM1[i1]`). -/
def borderOnsiteOps (c : Ham2D K) (M : ℕ) (ψ1 : ℤ → K) : List (KOp K) :=
  c.defects.flatMap fun d =>
    d.borderOnsites.map fun u =>
      KOp.add (u.i1 : ℤ) (((M : K) + 1) * u.u * ψ1 (u.i1 : ℤ))

/-- The tile sweep of `Multiply`: `i1` outer (`ty`), `i0` inner (`tx`). -/
def sweepOps (c : Ham2D K) (M : ℕ) (ψ1 ψ2 : ℤ → K) : List (KOp K) :=
  (List.range c.lStr1).flatMap fun ty =>
    (List.range c.lStr0).flatMap fun tx => tileOps c M ψ1 ψ2 tx ty

/-- Every write `KPM_Vector<T,2>::Multiply<MULT>` performs on the output
column, in program order: the `cross_mozaic_indexes` pre-initialization, the
tile sweep (`i1` outer, `i0` inner), the `vacancies_with_defects` zeroing,
the border bonds, the border on-sites.  `phiM1`/`phiM2` are the contents of
the two predecessor ring-buffer columns, which the sweep never writes. -/
def multiplyOps (c : Ham2D K) (M : ℕ) (ψ1 ψ2 : ℤ → K) : List (KOp K) :=
  phase1Ops c M ψ2 ++ sweepOps c M ψ1 ψ2 ++
    vwdOps c ++ borderBondOps c M ψ1 ++ borderOnsiteOps c M ψ1

/-- The output column of `Multiply<MULT>` as a function of the predecessor
columns `ψ1 = phiM1`, `ψ2 = phiM2` and the column's previous content `φ`. -/
def multiplyColumn (c : Ham2D K) (M : ℕ) (ψ1 ψ2 : ℤ → K) (φ : ℤ → K) : ℤ → K :=
  applyOps φ (multiplyOps c M ψ1 ψ2)

/-- The ring buffer of a KPM vector (KPM_VectorBasis): `memory` columns and
the rotating `index`. -/
structure KPMState (K : Type) where
  memory : ℕ
  idx : ℕ
  cols : ℕ → ℤ → K

/-- One `Multiply<MULT>` call on the ring buffer: `inc_index()`
(`index = (index+1) % memory`), then the new column `index` is computed from
`phiM1 = v.col((memory+index-1) % memory)` and
`phiM2 = v.col((memory+index-2) % memory)`; no other column is written. -/
def multiplyKPM (c : Ham2D K) (M : ℕ) (st : KPMState K) : KPMState K :=
  let i' := (st.idx + 1) % st.memory
  { memory := st.memory
    idx := i'
    cols := fun j =>
      if j = i' then
        multiplyColumn c M (st.cols ((st.memory + i' - 1) % st.memory))
          (st.cols ((st.memory + i' - 2) % st.memory)) (st.cols i')
      else st.cols j }

/-- Every write of the simple path `KPM_Vector<T,2>::Multiply2<MULT>`: for
each orbital and each bulk site `i = ix + iy*Ld[0] + io*Nd`,
`phi0[i] = -MULT*phiM2[i]` then `phi0[i] += (MULT+1)*h.t(ib,io)*phiM1[i +
h.d(ib,io)]` over the orbital's hoppings.  `h.t`/`h.d` read the same hopping
table as `h.hr.hopping`/`h.hr.distance` (the accessors live in
Hamiltonian.hpp, which is not among the staged sources; the spec keys both
paths on the same hopping structure). -/
def multiply2Ops (c : Ham2D K) (M : ℕ) (ψ1 ψ2 : ℤ → K) : List (KOp K) :=
  (List.range c.Orb).flatMap fun io =>
    (List.range (c.L1 - 2 * NGHOSTS)).flatMap fun iy =>
      (List.range (c.L0 - 2 * NGHOSTS)).flatMap fun ix =>
        KOp.set ((NGHOSTS + ix) + (NGHOSTS + iy) * c.L0 + io * c.Nd : ℕ)
            (-(M : K) * ψ2 ((NGHOSTS + ix) + (NGHOSTS + iy) * c.L0 + io * c.Nd : ℕ)) ::
          (List.range (c.nHop io)).map fun ib =>
            KOp.add ((NGHOSTS + ix) + (NGHOSTS + iy) * c.L0 + io * c.Nd : ℕ)
              (((M : K) + 1) * c.hopT ib io *
                ψ1 (((NGHOSTS + ix) + (NGHOSTS + iy) * c.L0 + io * c.Nd : ℕ) + c.hopD ib io))

/-- The output column of `Multiply2<MULT>`. -/
def multiply2Column (c : Ham2D K) (M : ℕ) (ψ1 ψ2 : ℤ → K) (φ : ℤ → K) : ℤ → K :=
  applyOps φ (multiply2Ops c M ψ1 ψ2)

/-- The on-site Anderson part of the Hamiltonian applied to `ψ1` at local
site `(x, y, io)` (the spec's `H`, with the `(MULT+1)` factor taken out). -/
def andersonTermH (c : Ham2D K) (ψ1 : ℤ → K) (x y io : ℕ) : K :=
  if 0 ≤ c.andersonAddr io then
    ψ1 (cellIdx c x y io : ℤ) *
      c.uAnderson ((cellIdx c x y io : ℤ) - (c.andersonAddr io - (io : ℤ)) * (c.Nd : ℤ))
  else if c.andersonAddr io = -1 then
    ψ1 (cellIdx c x y io : ℤ) * c.uOrbital io
  else 0

/-- The regular-hopping part of `H · ψ1` at `(x, y, io)`: each hopping with
its Peierls row phase. -/
def hopTermH (c : Ham2D K) (ψ1 : ℤ → K) (x y io : ℕ) : K :=
  ((List.range (c.nHop io)).map fun ib =>
    c.hopT ib io * ψ1 ((cellIdx c x y io : ℤ) + c.hopD ib io) *
      c.pex ((c.hopDx ib io : ℚ) * (c.gYrow y : ℚ) * c.A01)).sum

/-- The structural-disorder contributions of tile `istr` that target site
`s`: internal bonds with `ip + node_position[element1[k]] = s` plus internal
on-sites with `ip + node_position[element[k]] = s`. -/
def structTileSum (c : Ham2D K) (ψ1 : ℤ → K) (istr : ℕ) (s : ℤ) : K :=
  (c.defects.map fun d =>
    ((d.position istr).map fun (ip : ℕ) =>
      (d.bonds.map fun b =>
        if (ip : ℤ) + d.nodePos b.e1 = s then
          b.t * ψ1 ((ip : ℤ) + d.nodePos b.e2) *
            c.pex (sphase c ((ip : ℤ) + d.nodePos b.e1) ((ip : ℤ) + d.nodePos b.e2))
        else 0).sum +
      (d.onsites.map fun u =>
        if (ip : ℤ) + d.nodePos u.e = s then
          u.u * ψ1 ((ip : ℤ) + d.nodePos u.e)
        else 0).sum).sum).sum

/-- The border contributions (bonds then on-sites) that target site `s`. -/
def borderSum (c : Ham2D K) (ψ1 : ℤ → K) (s : ℤ) : K :=
  (c.defects.map fun d =>
    (d.borderBonds.map fun b =>
      if (b.i1 : ℤ) = s then
        b.t * ψ1 (b.i2 : ℤ) * c.pex (sphase c (b.i1 : ℤ) (b.i2 : ℤ))
      else 0).sum +
    (d.borderOnsites.map fun u =>
      if (u.i1 : ℤ) = s then u.u * ψ1 (u.i1 : ℤ) else 0).sum).sum

/-- `H · ψ1` at bulk site `(x, y, io)`: the Anderson on-site term, the
regular hoppings with Peierls phase, the structural-disorder terms of every
tile, and the border terms — the operator the spec writes `H` in
`ψ_new = (MULT+1)·H·ψ_{−1} − MULT·ψ_{−2}`. -/
def hamApply (c : Ham2D K) (ψ1 : ℤ → K) (x y io : ℕ) : K :=
  andersonTermH c ψ1 x y io + hopTermH c ψ1 x y io +
    ((List.range c.lStr1).map fun ty =>
      ((List.range c.lStr0).map fun tx =>
        structTileSum c ψ1 (ty * c.lStr0 + tx) (cellIdx c x y io : ℤ)).sum).sum +
    borderSum c ψ1 (cellIdx c x y io : ℤ)

/-- The sites targeted by tile `istr`'s structural-disorder pass (used to
state the cross-mozaic well-formedness hypotheses). -/
def structTargets (c : Ham2D K) (istr : ℕ) : List ℤ :=
  c.defects.flatMap fun d =>
    (d.position istr).flatMap fun (ip : ℕ) =>
      (d.bonds.map fun b => (ip : ℤ) + d.nodePos b.e1) ++
        (d.onsites.map fun u => (ip : ℤ) + d.nodePos u.e)

/-- The sites targeted by the border lists. -/
def borderTargets (c : Ham2D K) : List ℤ :=
  c.defects.flatMap fun d =>
    (d.borderBonds.map fun b => (b.i1 : ℤ)) ++
      (d.borderOnsites.map fun u => (u.i1 : ℤ))

/-- A bulk site `(x, y, io)` together with its tile decomposition
`x = NGHOSTS + tx₀*STRIDE + rx₀`, `y = NGHOSTS + ty₀*STRIDE + ry₀`, and
the well-formed tiling geometry `Ld[d] = 2*NGHOSTS + lStr[d]*STRIDE` the
sweep's loop bounds assume. -/
structure BulkGeom (c : Ham2D K) (x y io tx₀ ty₀ rx₀ ry₀ : ℕ) : Prop where
  hL0 : c.L0 = 2 * NGHOSTS + c.lStr0 * c.S
  hL1 : c.L1 = 2 * NGHOSTS + c.lStr1 * c.S
  hx : x = NGHOSTS + tx₀ * c.S + rx₀
  hrx : rx₀ < c.S
  htx : tx₀ < c.lStr0
  hy : y = NGHOSTS + ty₀ * c.S + ry₀
  hry : ry₀ < c.S
  hty : ty₀ < c.lStr1
  hio : io < c.Orb

/-- The front-end discipline for a bulk site at which the clean Chebyshev
formula is claimed: structural-disorder writes landing on the site from a
foreign tile only occur when the site's own tile is marked for
pre-initialization (`cross_mozaic` false there), and the site is on no
vacancy list. -/
structure NoVacWF (c : Ham2D K) (x y io tx₀ ty₀ : ℕ) : Prop where
  hst : ∀ ty' < c.lStr1, ∀ tx' < c.lStr0, ¬(tx' = tx₀ ∧ ty' = ty₀) →
    (cellIdx c x y io : ℤ) ∈ structTargets c (ty' * c.lStr0 + tx') →
      c.cm (ty₀ * c.lStr0 + tx₀) = false
  hnv : ∀ ty' < c.lStr1, ∀ tx' < c.lStr0,
    cellIdx c x y io ∉ c.vacTile (ty' * c.lStr0 + tx')
  hnw : cellIdx c x y io ∉ c.vwd

/-- The cross-mozaic discipline the Hamiltonian constructor establishes:
`cross_mozaic.at(τ)` is false exactly for the tiles listed in
`cross_mozaic_indexes` (those pre-initialized before the sweep and not
re-initialized inside it), and every listed tile index is a real tile. -/
structure CrossMozaicWF (c : Ham2D K) : Prop where
  hcm : ∀ τ, τ ∈ c.cmi ↔ c.cm τ = false
  hcmiR : ∀ τ ∈ c.cmi, τ < c.lStr0 * c.lStr1
  hnd : c.cmi.Nodup

end MultiplyModel

/-- The per-thread geometry `Exchange_Boundaries` uses: the local extents
`Ld[0]`, `Ld[1]`, the orbital count, and the precomputed neighbor map
`block[d][b]` (thread id of the neighbor in direction `b` along axis `d`;
boundary conditions are encoded in this map by the constructor). -/
structure Lat2D where
  L0 : ℕ
  L1 : ℕ
  Orb : ℕ
  block : Fin 2 → Fin 2 → ℕ → ℕ

section ExchangeModel

variable {α : Type}

/-- The axis-0 pass of `Exchange_Boundaries` on the family of per-thread
arrays (cells addressed by local coordinates `(i0, i1, io)`).  Each thread's
left ghost columns `i0 < NGHOSTS` over the bulk rows
(`max[0] = ld[1]` rows starting at `MemIndEnd[0][0] = (0, NGHOSTS)`) receive
the left neighbor `block[0][0]`'s right bulk face (staged from
`MemIndBeg[0][1] = (Ld[0]-2*NGHOSTS, NGHOSTS)`); symmetrically the right
ghost columns receive the right neighbor `block[0][1]`'s left bulk face
(staged from `MemIndBeg[0][0] = (NGHOSTS, NGHOSTS)`).  The two OpenMP
barriers make the pass read only the pre-pass state. -/
def exchangeAxis0 (c : Lat2D) (ψ : ℕ → ℕ × ℕ × ℕ → α) : ℕ → ℕ × ℕ × ℕ → α :=
  fun t p =>
    match p with
    | (x, y, io) =>
      if x < NGHOSTS ∧ NGHOSTS ≤ y ∧ y < c.L1 - NGHOSTS ∧ io < c.Orb then
        ψ (c.block 0 0 t) (c.L0 - 2 * NGHOSTS + x, y, io)
      else if c.L0 - NGHOSTS ≤ x ∧ x < c.L0 ∧ NGHOSTS ≤ y ∧ y < c.L1 - NGHOSTS ∧ io < c.Orb then
        ψ (c.block 0 1 t) (x - (c.L0 - 2 * NGHOSTS), y, io)
      else ψ t (x, y, io)

/-- The axis-1 pass: each thread's bottom ghost rows `i1 < NGHOSTS` over the
full width (`max[1] = Ld[0]` columns starting at `MemIndEnd[1][0] = (0, 0)`)
receive the bottom neighbor `block[1][0]`'s top face rows (staged from
`MemIndBeg[1][1] = (0, Ld[1]-2*NGHOSTS)`), and symmetrically for the top
ghost rows from `block[1][1]` (staged from `MemIndBeg[1][0] = (0, NGHOSTS)`).
It runs after the axis-0 pass and reads the state that pass left. -/
def exchangeAxis1 (c : Lat2D) (ψ : ℕ → ℕ × ℕ × ℕ → α) : ℕ → ℕ × ℕ × ℕ → α :=
  fun t p =>
    match p with
    | (x, y, io) =>
      if y < NGHOSTS ∧ x < c.L0 ∧ io < c.Orb then
        ψ (c.block 1 0 t) (x, c.L1 - 2 * NGHOSTS + y, io)
      else if c.L1 - NGHOSTS ≤ y ∧ y < c.L1 ∧ x < c.L0 ∧ io < c.Orb then
        ψ (c.block 1 1 t) (x, y - (c.L1 - 2 * NGHOSTS), io)
      else ψ t (x, y, io)

/-- `KPM_Vector<T,2>::Exchange_Boundaries`: the axis-0 pass, then the axis-1
pass on the state it produced (the `for(unsigned d = 0; d < 2; d++)` loop). -/
def exchangeBoundaries (c : Lat2D) (ψ : ℕ → ℕ × ℕ × ℕ → α) : ℕ → ℕ × ℕ × ℕ → α :=
  exchangeAxis1 c (exchangeAxis0 c ψ)

end ExchangeModel

section GammaModel

variable {K : Type} [Field K] [StarRing K]

/-- The total number of velocity axes of an index list (`num_velocities` of
`store_gamma`/`store_gamma3D`): the summed lengths of the per-factor axis
lists. -/
def numVelocities (indices : List (List ℕ)) : ℕ :=
  (indices.map List.length).sum

/-- `factor = 1 - (num_velocities % 2)*2`: `+1` for an even number of
velocity axes, `−1` for an odd number (each commutator is anti-Hermitian). -/
def symFactor (indices : List (List ℕ)) : ℤ :=
  1 - (numVelocities indices % 2) * 2

/-- The `case 2:` branch of `Simulation<T,D>::store_gamma` with a single
worker thread: the deposited matrix is
`(general_gamma + factor * general_gamma.adjoint())/2`, the adjoint being
the conjugate transpose on the `(n, m)` indices. -/
def storeGamma2D (indices : List (List ℕ)) (g : ℕ → ℕ → K) : ℕ → ℕ → K :=
  fun n m => (g n m + (symFactor indices : K) * star (g m n)) / 2

/-- The final scaling `gamma = gamma*factor` Gamma2D performs on the
accumulated running-mean matrix before calling `store_gamma`. -/
def gamma2DFinal (indices : List (List ℕ)) (mu : ℕ → ℕ → K) : ℕ → ℕ → K :=
  fun n m => (symFactor indices : K) * mu n m

/-- The matrix the Gamma2D/store_gamma pipeline deposits into the global
array, as a function of the accumulated running-mean matrix `mu`. -/
def gamma2DStored (indices : List (List ℕ)) (mu : ℕ → ℕ → K) : ℕ → ℕ → K :=
  storeGamma2D indices (gamma2DFinal indices mu)

/-- The matrix the spec's sentence claims is deposited:
`(mu + factor * mu†)/2` applied directly to the running-mean matrix. -/
def gamma2DClaimed (indices : List (List ℕ)) (mu : ℕ → ℕ → K) : ℕ → ℕ → K :=
  fun n m => (mu n m + (symFactor indices : K) * star (mu m n)) / 2

/-- `Simulation<T,D>::store_gamma3D`: the stored array built from the
accumulated `general_gamma` (`G a b c` is entry `(a + N0*b, c)`).  The four
symmetry branches accumulate into a zeroed `storage_gamma`:
all-axes-equal averages the three cyclic images and the three
`factor`-weighted conjugated anticyclic images; each two-equal-axes case adds
its two-term symmetrization; all-axes-distinct copies `G` as-is. -/
def storeGamma3D (l0 l1 l2 : List ℕ) (N0 N1 N2 : ℕ) (factor : ℤ)
    (G : ℕ → ℕ → ℕ → K) : ℕ → ℕ → ℕ → K :=
  fun n m p =>
    (if l0 = l1 ∧ l0 = l2 then
      G n m p / 6 + G m p n / 6 + G p n m / 6 +
        (factor : K) / 6 * star (G p m n) +
        (factor : K) / 6 * star (G n p m) +
        (factor : K) / 6 * star (G m n p)
    else 0) +
    (if l0 = l1 ∧ l0 ≠ l2 ∧ N1 = N2 then
      G n m p / 2 + (factor : K) / 2 * star (G n p m)
    else 0) +
    (if l0 = l2 ∧ l0 ≠ l1 ∧ N0 = N2 then
      G n m p / 2 + (factor : K) / 2 * star (G m n p)
    else 0) +
    (if l2 = l1 ∧ l0 ≠ l2 ∧ N0 = N1 then
      G n m p / 2 + (factor : K) / 2 * star (G p m n)
    else 0) +
    (if l0 ≠ l1 ∧ l0 ≠ l2 ∧ l1 ≠ l2 then G n m p else 0)

end GammaModel

section TestConfigs

/-- A minimal clean lattice for instantiating the theorems: one 1×1-site
tile per direction (`STRIDE = 1`, `lStr = 1`), `Ld = 5×5`, one orbital, no
hoppings, no disorder of any kind, no magnetic field. -/
def cexHam (K : Type) [Field K] : Ham2D K where
  L0 := 5
  L1 := 5
  Orb := 1
  S := 1
  lStr0 := 1
  lStr1 := 1
  Nd := 25
  A00 := 0
  A01 := 0
  A10 := 0
  A11 := 0
  gYrow := fun r => (r : ℤ)
  gXY := fun k => (k % 5, k / 5)
  pex := fun _ => 1
  nHop := fun _ => 0
  hopD := fun _ _ => 0
  hopT := fun _ _ => 0
  hopDx := fun _ _ => 0
  andersonAddr := fun _ => -2
  uAnderson := fun _ => 0
  uOrbital := fun _ => 0
  defects := []
  cmi := []
  cm := fun _ => true
  vacTile := fun _ => []
  vwd := []

/-- A structural-disorder pattern whose only entry is a border on-site term
of strength `1` at local site `12` (the centre of the 5×5 `cexHam`
lattice). -/
def cexDefect (K : Type) [Field K] : Defect K where
  position := fun _ => []
  nodePos := fun _ => 0
  bonds := []
  onsites := []
  borderBonds := []
  borderOnsites := [⟨12, 1⟩]

/-- `cexHam` with site `12` listed in `vacancies_with_defects` and, through
`cexDefect`, also targeted by a border on-site term: the configuration the
spec's tie-break sentence is about. -/
def cexHam3 (K : Type) [Field K] : Ham2D K where
  L0 := 5
  L1 := 5
  Orb := 1
  S := 1
  lStr0 := 1
  lStr1 := 1
  Nd := 25
  A00 := 0
  A01 := 0
  A10 := 0
  A11 := 0
  gYrow := fun r => (r : ℤ)
  gXY := fun k => (k % 5, k / 5)
  pex := fun _ => 1
  nHop := fun _ => 0
  hopD := fun _ _ => 0
  hopT := fun _ _ => 0
  hopDx := fun _ _ => 0
  andersonAddr := fun _ => -2
  uAnderson := fun _ => 0
  uOrbital := fun _ => 0
  defects := [cexDefect K]
  cmi := []
  cm := fun _ => true
  vacTile := fun _ => []
  vwd := [12]

end TestConfigs

section OpLemmas

variable {K : Type} [Field K]

theorem applyOps_append (f : ℤ → K) (l₁ l₂ : List (KOp K)) :
    applyOps f (l₁ ++ l₂) = applyOps (applyOps f l₁) l₂ := by
  simp [applyOps, List.foldl_append]

theorem applyOp_at (f : ℤ → K) (op : KOp K) (s : ℤ) (h : op.target ≠ s) :
    applyOp f op s = f s := by
  cases op with
  | set i v =>
    simp only [KOp.target] at h
    exact Function.update_noteq (Ne.symm h) _ _
  | add i v =>
    simp only [KOp.target] at h
    exact Function.update_noteq (Ne.symm h) _ _

theorem applyOp_congr (f g : ℤ → K) (op : KOp K) (s : ℤ) (h : f s = g s) :
    applyOp f op s = applyOp g op s := by
  cases op with
  | set i v =>
    by_cases hi : s = i
    · subst hi; simp [applyOp]
    · simp [applyOp, Function.update_noteq hi, h]
  | add i v =>
    by_cases hi : s = i
    · subst hi; simp [applyOp, h]
    · simp [applyOp, Function.update_noteq hi, h]

theorem applyOps_congr (ops : List (KOp K)) (f g : ℤ → K) (s : ℤ) (h : f s = g s) :
    applyOps f ops s = applyOps g ops s := by
  induction ops generalizing f g with
  | nil => exact h
  | cons op rest ih => exact ih (applyOp f op) (applyOp g op) (applyOp_congr f g op s h)

theorem applyOps_no_target (ops : List (KOp K)) (f : ℤ → K) (s : ℤ)
    (h : ∀ op ∈ ops, op.target ≠ s) : applyOps f ops s = f s := by
  induction ops generalizing f with
  | nil => rfl
  | cons op rest ih =>
    have h1 : applyOp f op s = f s := applyOp_at f op s (h op (by simp))
    calc applyOps (applyOp f op) rest s
        = applyOps f rest s := applyOps_congr rest _ f s h1
      _ = f s := ih f (fun o ho => h o (by simp [ho]))

theorem applyOps_no_set (ops : List (KOp K)) (f : ℤ → K) (s : ℤ)
    (h : ∀ v, KOp.set s v ∉ ops) : applyOps f ops s = f s + sumAt s ops := by
  induction ops generalizing f with
  | nil => simp [applyOps, sumAt]
  | cons op rest ih =>
    have hrest : ∀ v, KOp.set s v ∉ rest := fun v hv => h v (by simp [hv])
    cases op with
    | set i v =>
      have hi : i ≠ s := fun he => h v (by simp [he])
      have h1 : applyOp f (.set i v) s = f s := applyOp_at f _ s (by simpa [KOp.target])
      rw [show applyOps f (KOp.set i v :: rest) = applyOps (applyOp f (.set i v)) rest from rfl,
        applyOps_congr rest _ f s h1, ih f hrest]
      simp [sumAt]
    | add i v =>
      by_cases hi : i = s
      · subst hi
        have hv : applyOp f (.add i v) i = f i + v := by simp [applyOp]
        rw [show applyOps f (KOp.add i v :: rest) = applyOps (applyOp f (.add i v)) rest from rfl,
          ih _ hrest, hv]
        simp [sumAt]
        ring
      · have h1 : applyOp f (.add i v) s = f s := applyOp_at f _ s (by simpa [KOp.target])
        rw [show applyOps f (KOp.add i v :: rest) = applyOps (applyOp f (.add i v)) rest from rfl,
          applyOps_congr rest _ f s h1, ih f hrest]
        simp [sumAt, hi]

theorem applyOps_set_map {β : Type} [DecidableEq β] (cells : List β) (t : β → ℤ)
    (g : β → K) (f : ℤ → K) (s : β) (ht : ∀ a b, t a = t b → a = b) :
    applyOps f (cells.map fun i => KOp.set (t i) (g i)) (t s) =
      if s ∈ cells then g s else f (t s) := by
  induction cells generalizing f with
  | nil => simp [applyOps]
  | cons c rest ih =>
    rw [List.map_cons,
      show applyOps f (KOp.set (t c) (g c) :: _) =
        applyOps (applyOp f (.set (t c) (g c))) _ from rfl, ih]
    by_cases hc : c = s
    · subst hc
      by_cases hm : c ∈ rest
      · simp [hm]
      · simp [hm, applyOp]
    · have h1 : applyOp f (.set (t c) (g c)) (t s) = f (t s) :=
        applyOp_at _ _ _ (by
          simp only [KOp.target]
          exact fun he => hc (ht c s he))
      have hne : s ≠ c := fun h' => hc h'.symm
      by_cases hm : s ∈ rest <;> simp [hm, hne, h1]

end OpLemmas

theorem welford_loop (xs : List ℂ) : ∀ (m : ℂ) (A : ℕ), 0 < A →
    (xs.foldl (fun p x => (welfordStep p.1 x p.2, p.2 + 1)) (m, A)).1 =
      ((A : ℂ) * m + xs.sum) / ((A : ℂ) + xs.length) := by
  induction xs with
  | nil =>
    intro m A hA
    have hA' : (A : ℂ) ≠ 0 := Nat.cast_ne_zero.mpr hA.ne'
    simp only [List.foldl_nil, List.sum_nil, List.length_nil, Nat.cast_zero,
      add_zero]
    rw [mul_comm, mul_div_assoc, div_self hA', mul_one]
  | cons x xs ih =>
    intro m A hA
    have hA1 : ((A : ℂ) + 1) ≠ 0 := by
      have : ((A + 1 : ℕ) : ℂ) ≠ 0 := Nat.cast_ne_zero.mpr (Nat.succ_ne_zero A)
      simpa using this
    have hstep : welfordStep m x A = ((A : ℂ) * m + x) / ((A : ℂ) + 1) := by
      unfold welfordStep
      field_simp
      ring
    simp only [List.foldl_cons]
    rw [ih (welfordStep m x A) (A + 1) (Nat.succ_pos A), hstep]
    push_cast
    rw [mul_div_cancel₀ _ hA1]
    simp only [List.sum_cons, List.length_cons]
    push_cast
    ring_nf

/-- C7: the running-average update `mu += (x - mu)/(A+1)` used by every
moment accumulator computes the arithmetic mean of the samples folded in,
and folding `R + R'` samples in one run equals the length-weighted
combination of two independent runs. -/
theorem claim_C7 : ∀ xs ys : List ℂ,
    welfordRun xs = xs.sum / xs.length ∧
    welfordRun (xs ++ ys) =
      ((xs.length : ℂ) * welfordRun xs + (ys.length : ℂ) * welfordRun ys) /
        ((xs.length : ℂ) + (ys.length : ℂ)) := by
  have hmean : ∀ xs : List ℂ, welfordRun xs = xs.sum / xs.length := by
    intro xs
    cases xs with
    | nil => simp [welfordRun]
    | cons x xs =>
      unfold welfordRun
      simp only [List.foldl_cons]
      have h0 : welfordStep 0 x 0 = x := by
        unfold welfordStep
        norm_num
      rw [h0, welford_loop xs x 1 Nat.one_pos]
      push_cast
      simp [add_comm]
  intro xs ys
  refine ⟨hmean xs, ?_⟩
  rw [hmean (xs ++ ys), hmean xs, hmean ys]
  have hsum : ∀ l : List ℂ, (l.length : ℂ) * (l.sum / l.length) = l.sum := by
    intro l
    cases l with
    | nil => simp
    | cons a l =>
      have : ((a :: l).length : ℂ) ≠ 0 := Nat.cast_ne_zero.mpr (by simp)
      rw [mul_div_cancel₀ _ this]
  rw [hsum xs, hsum ys]
  simp [List.sum_append]

theorem mapFactor_legal (f : List Char) (h : ∀ ch ∈ f, ch = 'x' ∨ ch = 'y') :
    mapFactor f = some (f.map fun ch => if ch = 'x' then 0 else 1) := by
  induction f with
  | nil => simp [mapFactor]
  | cons c rest ih =>
    rcases h c (by simp) with hc | hc <;>
      simp [mapFactor, hc, ih fun ch hm => h ch (by simp [hm])]

theorem mapFactor_bad (f : List Char) (c : Char) (hm : c ∈ f)
    (hc : ¬(c = 'x' ∨ c = 'y')) : mapFactor f = none := by
  induction f with
  | nil => simp at hm
  | cons a rest ih =>
    rcases List.mem_cons.mp hm with h | h
    · subst h
      push_neg at hc
      simp [mapFactor, hc.1, hc.2]
    · by_cases ha : a = 'x'
      · simp [mapFactor, ha, ih h]
      · by_cases ha' : a = 'y' <;> simp [mapFactor, ha, ha', ih h]

theorem splitCommas_chars (cs : List Char) :
    ∀ f ∈ splitCommas cs, ∀ ch ∈ f, ch ∈ cs ∧ ch ≠ ',' := by
  induction cs with
  | nil =>
    intro f hf ch hch
    simp [splitCommas] at hf
    subst hf
    simp at hch
  | cons c rest ih =>
    intro f hf ch hch
    by_cases hc : c = ','
    · simp [splitCommas, hc] at hf
      rcases hf with hf | hf
      · subst hf; simp at hch
      · rcases ih f hf ch hch with ⟨h1, h2⟩
        exact ⟨by simp [h1], h2⟩
    · simp only [splitCommas, if_neg hc] at hf
      rcases hg : splitCommas rest with _ | ⟨g, gs⟩
      · rw [hg] at hf
        simp at hf
        subst hf
        simp at hch
        subst hch
        exact ⟨by simp, hc⟩
      · rw [hg] at hf
        simp at hf
        rcases hf with hf | hf
        · subst hf
          rcases List.mem_cons.mp hch with h | h
          · subst h; exact ⟨by simp, hc⟩
          · rcases ih g (by simp [hg]) ch h with ⟨h1, h2⟩
            exact ⟨by simp [h1], h2⟩
        · rcases ih f (by simp [hg, hf]) ch hch with ⟨h1, h2⟩
          exact ⟨by simp [h1], h2⟩

theorem splitCommas_cover (cs : List Char) (c : Char) (hm : c ∈ cs) (hc : c ≠ ',') :
    ∃ f ∈ splitCommas cs, c ∈ f := by
  induction cs with
  | nil => simp at hm
  | cons a rest ih =>
    by_cases ha : a = ','
    · have : c ∈ rest := by
        rcases List.mem_cons.mp hm with h | h
        · exact absurd (h.trans ha) hc
        · exact h
      rcases ih this with ⟨f, hf, hcf⟩
      exact ⟨f, by simp [splitCommas, ha, hf], hcf⟩
    · rcases List.mem_cons.mp hm with h | h
      · subst h
        rcases hg : splitCommas rest with _ | ⟨g, gs⟩
        · exact ⟨[c], by simp [splitCommas, ha, hg], by simp⟩
        · exact ⟨c :: g, by simp [splitCommas, ha, hg], by simp⟩
      · rcases ih h with ⟨f, hf, hcf⟩
        rcases hg : splitCommas rest with _ | ⟨g, gs⟩
        · rw [hg] at hf; simp at hf
        · rw [hg] at hf
          rcases List.mem_cons.mp hf with h' | h'
          · exact ⟨a :: g, by simp [splitCommas, ha, hg], by simp [h' ▸ hcf]⟩
          · exact ⟨f, by simp [splitCommas, ha, hg, h'], hcf⟩

theorem mapFactors_some (l : List (List Char)) (G : List Char → List ℕ)
    (h : ∀ f ∈ l, mapFactor f = some (G f)) : mapFactors l = some (l.map G) := by
  induction l with
  | nil => simp [mapFactors]
  | cons f rest ih =>
    rw [List.map_cons, mapFactors, h f (by simp), ih fun g hg => h g (by simp [hg])]

theorem mapFactors_none (l : List (List Char)) (f : List Char) (hf : f ∈ l)
    (h : mapFactor f = none) : mapFactors l = none := by
  induction l with
  | nil => simp at hf
  | cons g rest ih =>
    rcases List.mem_cons.mp hf with h' | h'
    · rw [mapFactors, ← h', h]
    · rw [mapFactors, ih h']
      cases mapFactor g <;> rfl

/-- C8 counterexample: the claim maps `'z'` to axis 2, but `process_string`
reaches the invalid-expression branch on `'z'` and aborts the job. -/
theorem claim_C8_counterexample :
    processString ['z'] = none ∧ processString ['z'] ≠ some [[2]] := by
  constructor <;> decide

/-- C8 (amended): `process_string` splits the direction string on commas and
maps `'x'` to axis 0 and `'y'` to axis 1 (an empty factor giving the empty
list); only `x`, `y` and the comma are legal, and any other character —
including `'z'` — aborts the job. -/
theorem claim_C8 : ∀ cs : List Char,
    ((∀ ch ∈ cs, ch = 'x' ∨ ch = 'y' ∨ ch = ',') →
      processString cs =
        some ((splitCommas cs).map fun f => f.map fun ch => if ch = 'x' then 0 else 1)) ∧
    (∀ c ∈ cs, ¬(c = 'x' ∨ c = 'y' ∨ c = ',') → processString cs = none) := by
  intro cs
  constructor
  · intro h
    unfold processString
    exact mapFactors_some _ _ fun f hf =>
      mapFactor_legal f fun ch hch => by
        rcases splitCommas_chars cs f hf ch hch with ⟨h1, h2⟩
        rcases h ch h1 with h' | h' | h'
        · exact Or.inl h'
        · exact Or.inr h'
        · exact absurd h' h2
  · intro c hm hc
    push_neg at hc
    rcases splitCommas_cover cs c hm hc.2.2 with ⟨f, hf, hcf⟩
    unfold processString
    exact mapFactors_none _ f hf
      (mapFactor_bad f c hcf (by push_neg; exact ⟨hc.1, hc.2.1⟩))

/-- C9: `main`'s exit codes contradict the spec: an unsupported dimension
(here `dim = 5`) exits with code 0, a normal completion
(`is_complex = 0`, `precision = 1`, `dim = 2`, the instantiated
`GlobalSimulation<double,2>` case) returns 1, and an unsupported precision
(`precision = 3`) also exits 0 — the spec asks for 0 on success and non-zero
on every configuration error.  The magnetic-field-with-real-amplitudes check
alone exits non-zero as specified. -/
theorem claim_C9_exit :
    mainExitCode ⟨0, 1, 5, 0⟩ = 0 ∧
    mainExitCode ⟨0, 3, 2, 0⟩ = 0 ∧
    mainExitCode ⟨0, 1, 2, 0⟩ = 1 ∧
    mainExitCode ⟨0, 1, 2, 1⟩ = 1 := by
  decide

theorem symFactor_cases (indices : List (List ℕ)) :
    symFactor indices = 1 ∨ symFactor indices = -1 := by
  unfold symFactor
  rcases Int.emod_two_eq ((numVelocities indices : ℤ)) with h | h <;> rw [h] <;> norm_num

/-- C5 counterexample: with one velocity axis (`factor = −1`) and the
running mean `mu = E_{01}`, the deposited entry `(0,1)` is `−1/2`, while
`(mu + factor·mu†)/2` has entry `1/2`: `Gamma2D` multiplies the accumulated
mean by `factor` before `store_gamma` applies the symmetrization, so the
deposited matrix is not `(mu + factor·mu†)/2`. -/
theorem claim_C5_counterexample :
    gamma2DStored [[0], []] (fun n m => if n = 0 ∧ m = 1 then (1 : ℚ) else 0) 0 1 ≠
      gamma2DClaimed [[0], []] (fun n m => if n = 0 ∧ m = 1 then (1 : ℚ) else 0) 0 1 := by
  have hf : symFactor [[0], []] = -1 := by decide
  simp only [gamma2DStored, storeGamma2D, gamma2DFinal, gamma2DClaimed, hf, star_trivial]
  norm_num

/-- C5 (amended): the matrix deposited by the Gamma2D/store_gamma pipeline
is `factor · (mu + factor·mu†)/2` (equivalently `(factor·mu + mu†)/2`)
rather than `(mu + factor·mu†)/2`; the claimed Hermiticity relation
`M_{nm} = factor · conj(M_{mn})` does hold for the deposited matrix. -/
theorem claim_C5 : ∀ (indices : List (List ℕ)) (mu : ℕ → ℕ → ℂ) (n m : ℕ),
    gamma2DStored indices mu n m =
      (symFactor indices : ℂ) * gamma2DClaimed indices mu n m ∧
    gamma2DStored indices mu n m =
      (symFactor indices : ℂ) * star (gamma2DStored indices mu m n) := by
  intro indices mu n m
  rcases symFactor_cases indices with hf | hf <;>
    constructor <;>
      simp only [gamma2DStored, storeGamma2D, gamma2DFinal, gamma2DClaimed, hf,
        Int.cast_one, Int.cast_neg, one_mul, neg_mul, star_add, star_neg,
        star_star, star_div₀, star_mul', star_one, star_ofNat] <;>
      ring

/-- C6: when the three axis vectors of a 3D moment calculation coincide, the
stored array is the six-permutation average
`(G_nmp + G_mpn + G_pnm)/6 + factor·(conj G_pmn + conj G_npm + conj G_mnp)/6`
with `factor = 1 − 2·(#velocities mod 2)`, and is invariant under cyclic
permutation of `(n, m, p)`; when the three axis vectors are pairwise
distinct the array is stored as-is. -/
theorem claim_C6 : ∀ (l0 l1 l2 : List ℕ) (N0 N1 N2 : ℕ) (G : ℕ → ℕ → ℕ → ℂ) (n m p : ℕ),
    ((l0 = l1 ∧ l0 = l2) →
      storeGamma3D l0 l1 l2 N0 N1 N2 (symFactor [l0, l1, l2]) G n m p =
        (G n m p + G m p n + G p n m) / 6 +
          (symFactor [l0, l1, l2] : ℂ) *
            (star (G p m n) + star (G n p m) + star (G m n p)) / 6 ∧
      storeGamma3D l0 l1 l2 N0 N1 N2 (symFactor [l0, l1, l2]) G n m p =
        storeGamma3D l0 l1 l2 N0 N1 N2 (symFactor [l0, l1, l2]) G m p n) ∧
    ((l0 ≠ l1 ∧ l0 ≠ l2 ∧ l1 ≠ l2) →
      storeGamma3D l0 l1 l2 N0 N1 N2 (symFactor [l0, l1, l2]) G n m p = G n m p) := by
  intro l0 l1 l2 N0 N1 N2 G n m p
  constructor
  · rintro ⟨h1, h2⟩
    subst h1
    subst h2
    constructor <;> simp [storeGamma3D] <;> ring
  · rintro ⟨h1, h2, h3⟩
    simp [storeGamma3D, h1, h2, h3, Ne.symm h3]

/-- C2: after `Exchange_Boundaries` returns, each ghost-face cell that
mirrors a bulk-face cell of the neighbor designated by the precomputed map
`block[d][0/1]` holds exactly that neighbor's bulk value: along axis 0 the
left/right ghost columns over the bulk rows, along axis 1 the bottom/top
ghost rows over the bulk columns. -/
theorem claim_C2 : ∀ (α : Type) (c : Lat2D) (ψ : ℕ → ℕ × ℕ × ℕ → α) (t x y io : ℕ),
    ((x < NGHOSTS ∧ NGHOSTS ≤ y ∧ y < c.L1 - NGHOSTS ∧ io < c.Orb) →
      exchangeBoundaries c ψ t (x, y, io) =
        ψ (c.block 0 0 t) (c.L0 - 2 * NGHOSTS + x, y, io)) ∧
    ((c.L0 - NGHOSTS ≤ x ∧ x < c.L0 ∧ NGHOSTS ≤ y ∧ y < c.L1 - NGHOSTS ∧
        io < c.Orb ∧ 2 * NGHOSTS ≤ c.L0) →
      exchangeBoundaries c ψ t (x, y, io) =
        ψ (c.block 0 1 t) (x - (c.L0 - 2 * NGHOSTS), y, io)) ∧
    ((y < NGHOSTS ∧ NGHOSTS ≤ x ∧ x < c.L0 - NGHOSTS ∧ io < c.Orb) →
      exchangeBoundaries c ψ t (x, y, io) =
        ψ (c.block 1 0 t) (x, c.L1 - 2 * NGHOSTS + y, io)) ∧
    ((c.L1 - NGHOSTS ≤ y ∧ y < c.L1 ∧ NGHOSTS ≤ x ∧ x < c.L0 - NGHOSTS ∧
        io < c.Orb ∧ 2 * NGHOSTS ≤ c.L1) →
      exchangeBoundaries c ψ t (x, y, io) =
        ψ (c.block 1 1 t) (x, y - (c.L1 - 2 * NGHOSTS), io)) := by
  intro α c ψ t x y io
  refine ⟨?_, ?_, ?_, ?_⟩ <;>
    · intro h
      simp only [NGHOSTS] at h ⊢
      simp only [exchangeBoundaries, exchangeAxis0, exchangeAxis1, NGHOSTS]
      split_ifs <;> first | rfl | omega

theorem natDecomp (n a a' b b' : ℕ) (ha : a < n) (ha' : a' < n)
    (h : a + n * b = a' + n * b') : a = a' ∧ b = b' := by
  have h1 : (a + n * b) % n = a % n := by
    simp [Nat.add_mul_mod_self_left]
  have h2 : (a' + n * b') % n = a' % n := by
    simp [Nat.add_mul_mod_self_left]
  have hmod : a = a' := by
    rw [← Nat.mod_eq_of_lt ha, ← Nat.mod_eq_of_lt ha', ← h1, ← h2, h]
  refine ⟨hmod, ?_⟩
  subst hmod
  have hn : 0 < n := Nat.pos_of_ne_zero fun h0 => by omega
  exact Nat.eq_of_mul_eq_mul_left hn (by omega)

theorem sum_ite_range {K : Type} [Field K] (n r₀ : ℕ) (v : ℕ → K) :
    ((List.range n).map fun r => if r = r₀ then v r else 0).sum =
      if r₀ < n then v r₀ else 0 := by
  induction n with
  | zero => simp
  | succ n ih =>
    rw [List.range_succ, List.map_append, List.sum_append, ih]
    by_cases h : r₀ < n
    · have : n ≠ r₀ := by omega
      simp [h, this, Nat.lt_succ_of_lt h]
    · by_cases h' : n = r₀
      · subst h'
        simp [h, Nat.lt_succ_self]
      · have : ¬ r₀ < n + 1 := by omega
        simp [h, h', this]

theorem sum_ite_mul_left {K : Type} [Field K] {β : Type} (l : List β)
    (p : β → Prop) [DecidablePred p] (k : K) (w : β → K) :
    (l.map fun a => if p a then k * w a else 0).sum =
      k * (l.map fun a => if p a then w a else 0).sum := by
  induction l with
  | nil => simp
  | cons a rest ih =>
    simp only [List.map_cons, List.sum_cons, ih, mul_add]
    by_cases h : p a <;> simp [h]

section SumAtLemmas

variable {K : Type} [Field K]

theorem sumAt_append (s : ℤ) (l₁ l₂ : List (KOp K)) :
    sumAt s (l₁ ++ l₂) = sumAt s l₁ + sumAt s l₂ := by
  simp [sumAt]

theorem sumAt_flatMap {β : Type} (s : ℤ) (l : List β) (F : β → List (KOp K)) :
    sumAt s (l.flatMap F) = (l.map fun a => sumAt s (F a)).sum := by
  induction l with
  | nil => simp [sumAt]
  | cons a rest ih => simp [List.flatMap_cons, sumAt_append, ih]

theorem sumAt_map_add {β : Type} (s : ℤ) (cells : List β) (t : β → ℤ) (g : β → K) :
    sumAt s (cells.map fun i => KOp.add (t i) (g i)) =
      (cells.map fun i => if t i = s then g i else 0).sum := by
  simp [sumAt, List.map_map]
  rfl

theorem sumAt_map_set {β : Type} (s : ℤ) (cells : List β) (t : β → ℤ) (g : β → K) :
    sumAt s (cells.map fun i => KOp.set (t i) (g i)) = 0 := by
  induction cells with
  | nil => simp [sumAt]
  | cons a rest ih => simpa [sumAt, List.map_cons] using ih

theorem no_set_map_add {β : Type} (s : ℤ) (cells : List β) (t : β → ℤ) (g : β → K) :
    ∀ v, KOp.set s v ∉ cells.map fun i => KOp.add (t i) (g i) := by
  intro v hm
  rcases List.mem_map.mp hm with ⟨i, _, he⟩
  exact KOp.noConfusion he

theorem no_target_map {β : Type} (s : ℤ) (cells : List β) (t : β → ℤ)
    (F : β → KOp K) (hF : ∀ i, (F i).target = t i) (h : ∀ i ∈ cells, t i ≠ s) :
    ∀ op ∈ cells.map F, op.target ≠ s := by
  intro op hm
  rcases List.mem_map.mp hm with ⟨i, hi, he⟩
  rw [← he, hF i]
  exact h i hi

end SumAtLemmas

theorem cellIdx_shape {K : Type} [Field K] (c : Ham2D K) (x y io : ℕ) :
    cellIdx c x y io = x + c.L0 * (y + c.L1 * io) := by
  unfold cellIdx
  ring

theorem cellIdx_inj {K : Type} [Field K] (c : Ham2D K) (x y io x' y' io' : ℕ)
    (hx : x < c.L0) (hx' : x' < c.L0) (hy : y < c.L1) (hy' : y' < c.L1)
    (h : cellIdx c x y io = cellIdx c x' y' io') : x = x' ∧ y = y' ∧ io = io' := by
  rw [cellIdx_shape, cellIdx_shape] at h
  rcases natDecomp c.L0 x x' _ _ hx hx' h with ⟨h1, h2⟩
  rcases natDecomp c.L1 y y' _ _ hy hy' h2 with ⟨h3, h4⟩
  exact ⟨h1, h3, h4⟩

theorem cellIdx_add_x {K : Type} [Field K] (c : Ham2D K) (x k y io : ℕ) :
    cellIdx c (x + k) y io = cellIdx c x y io + k := by
  unfold cellIdx
  ring

section EvalLemmas

variable {K : Type} [Field K]

theorem applyOps_flatMap_one {β : Type} [DecidableEq β] (l : List β)
    (F : β → List (KOp K)) (s : ℤ) (f : ℤ → K) (a₀ : β) (hmem : a₀ ∈ l)
    (hnd : l.Nodup) (h : ∀ a ∈ l, a ≠ a₀ → ∀ op ∈ F a, op.target ≠ s) :
    applyOps f (l.flatMap F) s = applyOps f (F a₀) s := by
  revert hmem hnd h
  induction l generalizing f with
  | nil =>
    intro hmem _ _
    simp at hmem
  | cons a rest ih =>
    intro hmem hnd h
    rw [List.flatMap_cons, applyOps_append]
    by_cases ha : a = a₀
    · subst ha
      have hnr : a ∉ rest := (List.nodup_cons.mp hnd).1
      apply applyOps_no_target
      intro op hop
      rcases List.mem_flatMap.mp hop with ⟨b, hb, hob⟩
      exact h b (by simp [hb]) (fun he => hnr (he ▸ hb)) op hob
    · have h1 : applyOps f (F a) s = f s :=
        applyOps_no_target _ _ _ (h a (by simp) ha)
      rw [applyOps_congr _ _ f s h1]
      rcases List.mem_cons.mp hmem with he | he
      · exact absurd he.symm ha
      · exact ih f he (List.nodup_cons.mp hnd).2
          (fun b hb hne op hop => h b (by simp [hb]) hne op hop)

theorem sum_ite_eq_mem {β : Type} [DecidableEq β] (l : List β) (hnd : l.Nodup)
    (s : β) (g : β → K) :
    (l.map fun i => if i = s then g i else 0).sum = if s ∈ l then g s else 0 := by
  induction l with
  | nil => simp
  | cons a rest ih =>
    rcases List.nodup_cons.mp hnd with ⟨hna, hnr⟩
    rw [List.map_cons, List.sum_cons, ih hnr]
    by_cases ha : a = s
    · subst ha
      simp [hna]
    · have : ¬ s = a := fun h => ha h.symm
      by_cases hm : s ∈ rest <;> simp [ha, hm, this]

theorem sum_ite_zero_of_not_mem {β : Type} [DecidableEq β] (l : List β)
    (s : β) (hs : s ∉ l) (g : β → K) :
    (l.map fun i => if i = s then g i else 0).sum = 0 := by
  apply List.sum_eq_zero
  intro v hv
  rcases List.mem_map.mp hv with ⟨i, hi, he⟩
  have : i ≠ s := fun h => hs (h ▸ hi)
  simp [this] at he
  exact he.symm

theorem sum_map_add_fun {β : Type} (l : List β) (f g : β → K) :
    (l.map fun a => f a + g a).sum = (l.map f).sum + (l.map g).sum := by
  induction l with
  | nil => simp
  | cons a rest ih => simp [List.map_cons, ih]; ring

end EvalLemmas

section Geometry

variable {K : Type} [Field K]

theorem tile_coord_lt {K' : Type} [Field K'] (c : Ham2D K') (tx k : ℕ)
    (htx : tx < c.lStr0) (hk : k < c.S) (hL0 : c.L0 = 2 * NGHOSTS + c.lStr0 * c.S) :
    NGHOSTS + tx * c.S + k < c.L0 := by
  have h1 : tx * c.S + c.S ≤ c.lStr0 * c.S :=
    le_trans (by rw [← Nat.succ_mul]) (Nat.mul_le_mul_right c.S (Nat.succ_le_of_lt htx))
  omega

theorem tile_coord_lt' {K' : Type} [Field K'] (c : Ham2D K') (ty r : ℕ)
    (hty : ty < c.lStr1) (hr : r < c.S) (hL1 : c.L1 = 2 * NGHOSTS + c.lStr1 * c.S) :
    NGHOSTS + ty * c.S + r < c.L1 := by
  have h1 : ty * c.S + c.S ≤ c.lStr1 * c.S :=
    le_trans (by rw [← Nat.succ_mul]) (Nat.mul_le_mul_right c.S (Nat.succ_le_of_lt hty))
  omega

theorem mem_rowCells_iff (c : Ham2D K) (hL0 : c.L0 = 2 * NGHOSTS + c.lStr0 * c.S)
    (hL1 : c.L1 = 2 * NGHOSTS + c.lStr1 * c.S)
    (x y io : ℕ) (hx : x < c.L0) (hy : y < c.L1)
    (tx ty r io' : ℕ) (htx : tx < c.lStr0) (hty : ty < c.lStr1) (hr : r < c.S) :
    cellIdx c x y io ∈ rowCells c tx ty r io' ↔
      (NGHOSTS + tx * c.S ≤ x ∧ x < NGHOSTS + tx * c.S + c.S ∧
        y = NGHOSTS + ty * c.S + r ∧ io = io') := by
  simp only [rowCells, List.mem_map, List.mem_range]
  constructor
  · rintro ⟨k, hk, he⟩
    rcases cellIdx_inj c _ _ _ _ _ _
      (tile_coord_lt c tx k htx hk hL0) hx (tile_coord_lt' c ty r hty hr hL1) hy he with
      ⟨h1, h2, h3⟩
    exact ⟨by omega, by omega, h2.symm, h3.symm⟩
  · rintro ⟨h1, h2, h3, h4⟩
    refine ⟨x - (NGHOSTS + tx * c.S), by omega, ?_⟩
    have hx' : NGHOSTS + tx * c.S + (x - (NGHOSTS + tx * c.S)) = x := by omega
    rw [hx', ← h3, ← h4]

theorem mem_tileCells_iff (c : Ham2D K) (hL0 : c.L0 = 2 * NGHOSTS + c.lStr0 * c.S)
    (hL1 : c.L1 = 2 * NGHOSTS + c.lStr1 * c.S)
    (x y io : ℕ) (hx : x < c.L0) (hy : y < c.L1)
    (tx ty io' : ℕ) (htx : tx < c.lStr0) (hty : ty < c.lStr1) :
    cellIdx c x y io ∈ tileCellsList c tx ty io' ↔
      (NGHOSTS + tx * c.S ≤ x ∧ x < NGHOSTS + tx * c.S + c.S ∧
        NGHOSTS + ty * c.S ≤ y ∧ y < NGHOSTS + ty * c.S + c.S ∧ io = io') := by
  unfold tileCellsList
  simp only [List.mem_flatMap, List.mem_range]
  constructor
  · rintro ⟨r, hr, hm⟩
    rcases (mem_rowCells_iff c hL0 hL1 x y io hx hy tx ty r io' htx hty hr).mp hm with
      ⟨h1, h2, h3, h4⟩
    exact ⟨h1, h2, by omega, by omega, h4⟩
  · rintro ⟨h1, h2, h3, h4, h5⟩
    refine ⟨y - (NGHOSTS + ty * c.S), by omega, ?_⟩
    exact (mem_rowCells_iff c hL0 hL1 x y io hx hy tx ty _ io' htx hty (by omega)).mpr
      ⟨h1, h2, by omega, h5⟩

theorem tile_unique (S tx tx₀ rx₀ : ℕ) (hrx : rx₀ < S)
    (h1 : tx * S ≤ tx₀ * S + rx₀) (h2 : tx₀ * S + rx₀ < tx * S + S) : tx = tx₀ := by
  have hS : 0 < S := by omega
  have e1 : (tx₀ * S + rx₀) / S = tx₀ := by
    rw [add_comm, mul_comm, Nat.add_mul_div_left _ _ hS, Nat.div_eq_of_lt hrx, zero_add]
  have e2 : (tx₀ * S + rx₀) / S = tx := by
    apply Nat.div_eq_of_lt_le h1
    rw [add_mul, one_mul]
    exact h2
  omega

end Geometry

theorem sum_map_flatMap {K : Type} [Field K] {α β : Type} (l : List α)
    (f : α → List β) (F : β → K) :
    ((l.flatMap f).map F).sum = (l.map fun a => ((f a).map F).sum).sum := by
  induction l with
  | nil => simp
  | cons a rest ih => simp [List.flatMap_cons, ih]


section MultiplyEval

variable {K : Type} [Field K]

theorem bulk_x_lt (c : Ham2D K) {x y io tx₀ ty₀ rx₀ ry₀ : ℕ}
    (hg : BulkGeom c x y io tx₀ ty₀ rx₀ ry₀) : x < c.L0 := by
  rw [hg.hx]
  exact tile_coord_lt c tx₀ rx₀ hg.htx hg.hrx hg.hL0

theorem bulk_y_lt (c : Ham2D K) {x y io tx₀ ty₀ rx₀ ry₀ : ℕ}
    (hg : BulkGeom c x y io tx₀ ty₀ rx₀ ry₀) : y < c.L1 := by
  rw [hg.hy]
  exact tile_coord_lt' c ty₀ ry₀ hg.hty hg.hry hg.hL1

theorem mem_row_own (c : Ham2D K) {x y io tx₀ ty₀ rx₀ ry₀ : ℕ}
    (hg : BulkGeom c x y io tx₀ ty₀ rx₀ ry₀) (tx ty r io' : ℕ)
    (htx' : tx < c.lStr0) (hty' : ty < c.lStr1) (hr : r < c.S) :
    cellIdx c x y io ∈ rowCells c tx ty r io' ↔
      (tx = tx₀ ∧ ty = ty₀ ∧ r = ry₀ ∧ io' = io) := by
  rw [mem_rowCells_iff c hg.hL0 hg.hL1 x y io (bulk_x_lt c hg) (bulk_y_lt c hg)
    tx ty r io' htx' hty' hr]
  have ex := hg.hx
  have ey := hg.hy
  have erx := hg.hrx
  have ery := hg.hry
  constructor
  · rintro ⟨h1, h2, h3, h4⟩
    have e1 : tx = tx₀ := tile_unique c.S tx tx₀ rx₀ erx (by omega) (by omega)
    have e2 : ty = ty₀ := tile_unique c.S ty ty₀ ry₀ ery (by omega) (by omega)
    have e3 : r = ry₀ := by
      rw [e2] at h3
      omega
    exact ⟨e1, e2, e3, h4.symm⟩
  · rintro ⟨h1, h2, h3, h4⟩
    subst h1; subst h2; subst h3; subst h4
    refine ⟨by omega, by omega, by omega, rfl⟩

theorem mem_tile_own (c : Ham2D K) {x y io tx₀ ty₀ rx₀ ry₀ : ℕ}
    (hg : BulkGeom c x y io tx₀ ty₀ rx₀ ry₀) (tx ty io' : ℕ)
    (htx' : tx < c.lStr0) (hty' : ty < c.lStr1) :
    cellIdx c x y io ∈ tileCellsList c tx ty io' ↔
      (tx = tx₀ ∧ ty = ty₀ ∧ io' = io) := by
  unfold tileCellsList
  simp only [List.mem_flatMap, List.mem_range]
  constructor
  · rintro ⟨r, hr, hm⟩
    rcases (mem_row_own c hg tx ty r io' htx' hty' hr).mp hm with ⟨h1, h2, h3, h4⟩
    exact ⟨h1, h2, h4⟩
  · rintro ⟨h1, h2, h3⟩
    exact ⟨ry₀, hg.hry, (mem_row_own c hg tx ty ry₀ io' htx' hty' hg.hry).mpr
      ⟨h1, h2, rfl, h3⟩⟩

theorem nodup_rowCells (c : Ham2D K) (tx ty r io' : ℕ) :
    (rowCells c tx ty r io').Nodup := by
  unfold rowCells
  apply List.Nodup.map ?_ (List.nodup_range _)
  intro a b h
  simp only [cellIdx] at h
  omega

theorem nodup_tileCells (c : Ham2D K)
    (hL0 : c.L0 = 2 * NGHOSTS + c.lStr0 * c.S)
    (hL1 : c.L1 = 2 * NGHOSTS + c.lStr1 * c.S)
    (tx ty io' : ℕ) (htx' : tx < c.lStr0) (hty' : ty < c.lStr1) :
    (tileCellsList c tx ty io').Nodup := by
  unfold tileCellsList
  rw [List.nodup_flatMap]
  refine ⟨fun r _ => nodup_rowCells c tx ty r io', ?_⟩
  have hpl : (List.range c.S).Pairwise (· < ·) := List.pairwise_lt_range _
  apply List.Pairwise.imp_of_mem ?_ hpl
  intro r r' hr hr' hrr i hi hi'
  have hrS := List.mem_range.mp hr
  have hrS' := List.mem_range.mp hr'
  simp only [rowCells, List.mem_map, List.mem_range] at hi hi'
  rcases hi with ⟨k, hk, he⟩
  rcases hi' with ⟨k', hk', he'⟩
  rw [← he'] at he
  rcases cellIdx_inj c _ _ _ _ _ _
    (tile_coord_lt c tx k htx' hk hL0) (tile_coord_lt c tx k' htx' hk' hL0)
    (tile_coord_lt' c ty r hty' hrS hL1) (tile_coord_lt' c ty r' hty' hrS' hL1)
    he with ⟨h1, h2, h3⟩
  omega

end MultiplyEval

section BlockLemmas

variable {K : Type} [Field K]

theorem map_cast_no_target {β : Type} (l : List β) (t : β → ℕ) (F : β → KOp K)
    (hF : ∀ i, (F i).target = (t i : ℤ)) (s : ℕ) (hs : ∀ i ∈ l, t i ≠ s) :
    ∀ op ∈ l.map F, op.target ≠ (s : ℤ) := by
  intro op hop
  rcases List.mem_map.mp hop with ⟨i, hi, he⟩
  rw [← he, hF i]
  intro heq
  exact hs i hi (Nat.cast_injective heq)

theorem initOps_no_target (c : Ham2D K) (M : ℕ) (ψ2 : ℤ → K) (tx ty io' : ℕ)
    (s : ℕ) (hs : s ∉ tileCellsList c tx ty io') :
    ∀ op ∈ initOps c M ψ2 tx ty io', op.target ≠ (s : ℤ) := by
  unfold initOps
  refine map_cast_no_target _ id _ ?_ s (fun i hi he => hs (he ▸ hi))
  intro i
  rfl

theorem andersonOps_no_target (c : Ham2D K) (M : ℕ) (ψ1 : ℤ → K) (tx ty io' : ℕ)
    (s : ℕ) (hs : s ∉ tileCellsList c tx ty io') :
    ∀ op ∈ andersonOps c M ψ1 tx ty io', op.target ≠ (s : ℤ) := by
  unfold andersonOps
  split_ifs
  · refine map_cast_no_target _ id _ ?_ s (fun i hi he => hs (he ▸ hi))
    intro i
    rfl
  · refine map_cast_no_target _ id _ ?_ s (fun i hi he => hs (he ▸ hi))
    intro i
    rfl
  · intro op hop
    simp at hop

theorem hopOps_no_target (c : Ham2D K) (M : ℕ) (ψ1 : ℤ → K) (tx ty io' : ℕ)
    (s : ℕ) (hs : s ∉ tileCellsList c tx ty io') :
    ∀ op ∈ hopOps c M ψ1 tx ty io', op.target ≠ (s : ℤ) := by
  intro op hop
  unfold hopOps at hop
  rcases List.mem_flatMap.mp hop with ⟨ib, _, hop1⟩
  rcases List.mem_flatMap.mp hop1 with ⟨r, hr, hop2⟩
  refine map_cast_no_target _ id _ ?_ s ?_ op hop2
  · intro i
    rfl
  · intro i hi he
    exact hs (he ▸ List.mem_flatMap.mpr ⟨r, hr, hi⟩)

theorem structOps_no_target (c : Ham2D K) (M : ℕ) (ψ1 : ℤ → K) (istr : ℕ)
    (s : ℤ) (hs : s ∉ structTargets c istr) :
    ∀ op ∈ structOps c M ψ1 istr, op.target ≠ s := by
  intro op hop heq
  apply hs
  unfold structOps at hop
  unfold structTargets
  rcases List.mem_flatMap.mp hop with ⟨d, hd, hop1⟩
  rcases List.mem_flatMap.mp hop1 with ⟨ip, hip, hop2⟩
  refine List.mem_flatMap.mpr ⟨d, hd, List.mem_flatMap.mpr ⟨ip, hip, ?_⟩⟩
  rcases List.mem_append.mp hop2 with hb | hu
  · rcases List.mem_map.mp hb with ⟨b, hbm, he⟩
    refine List.mem_append.mpr (Or.inl (List.mem_map.mpr ⟨b, hbm, ?_⟩))
    rw [← heq, ← he]
    rfl
  · rcases List.mem_map.mp hu with ⟨u, hum, he⟩
    refine List.mem_append.mpr (Or.inr (List.mem_map.mpr ⟨u, hum, ?_⟩))
    rw [← heq, ← he]
    rfl

theorem vacOps_no_target (c : Ham2D K) (istr : ℕ) (s : ℕ)
    (hs : s ∉ c.vacTile istr) :
    ∀ op ∈ (vacOps c istr : List (KOp K)), op.target ≠ (s : ℤ) := by
  unfold vacOps
  refine map_cast_no_target _ id _ ?_ s (fun i hi he => hs (he ▸ hi))
  intro i
  rfl

theorem borderBondOps_no_target (c : Ham2D K) (M : ℕ) (ψ1 : ℤ → K) (s : ℤ)
    (hs : s ∉ borderTargets c) :
    ∀ op ∈ borderBondOps c M ψ1, op.target ≠ s := by
  intro op hop heq
  apply hs
  unfold borderBondOps at hop
  unfold borderTargets
  rcases List.mem_flatMap.mp hop with ⟨d, hd, hop1⟩
  rcases List.mem_map.mp hop1 with ⟨b, hbm, he⟩
  refine List.mem_flatMap.mpr ⟨d, hd, List.mem_append.mpr (Or.inl
    (List.mem_map.mpr ⟨b, hbm, ?_⟩))⟩
  rw [← heq, ← he]
  rfl

theorem borderOnsiteOps_no_target (c : Ham2D K) (M : ℕ) (ψ1 : ℤ → K) (s : ℤ)
    (hs : s ∉ borderTargets c) :
    ∀ op ∈ borderOnsiteOps c M ψ1, op.target ≠ s := by
  intro op hop heq
  apply hs
  unfold borderOnsiteOps at hop
  unfold borderTargets
  rcases List.mem_flatMap.mp hop with ⟨d, hd, hop1⟩
  rcases List.mem_map.mp hop1 with ⟨u, hum, he⟩
  refine List.mem_flatMap.mpr ⟨d, hd, List.mem_append.mpr (Or.inr
    (List.mem_map.mpr ⟨u, hum, ?_⟩))⟩
  rw [← heq, ← he]
  rfl

theorem no_set_in_map_add {β : Type} (l : List β) (t : β → ℤ) (g : β → K) :
    ∀ v, KOp.set s' v ∉ l.map fun i => KOp.add (t i) (g i) := by
  intro v hm
  rcases List.mem_map.mp hm with ⟨i, _, he⟩
  exact KOp.noConfusion he

theorem andersonOps_no_set (c : Ham2D K) (M : ℕ) (ψ1 : ℤ → K) (tx ty io' : ℕ)
    (s : ℤ) : ∀ v, KOp.set s v ∉ andersonOps c M ψ1 tx ty io' := by
  unfold andersonOps
  split_ifs
  · exact fun v hm => no_set_in_map_add _ _ _ v hm
  · exact fun v hm => no_set_in_map_add _ _ _ v hm
  · simp

theorem hopOps_no_set (c : Ham2D K) (M : ℕ) (ψ1 : ℤ → K) (tx ty io' : ℕ)
    (s : ℤ) : ∀ v, KOp.set s v ∉ hopOps c M ψ1 tx ty io' := by
  intro v hm
  unfold hopOps at hm
  rcases List.mem_flatMap.mp hm with ⟨ib, _, h1⟩
  rcases List.mem_flatMap.mp h1 with ⟨r, _, h2⟩
  exact no_set_in_map_add _ _ _ v h2

theorem structOps_no_set (c : Ham2D K) (M : ℕ) (ψ1 : ℤ → K) (istr : ℕ)
    (s : ℤ) : ∀ v, KOp.set s v ∉ structOps c M ψ1 istr := by
  intro v hm
  unfold structOps at hm
  rcases List.mem_flatMap.mp hm with ⟨d, _, h1⟩
  rcases List.mem_flatMap.mp h1 with ⟨ip, _, h2⟩
  rcases List.mem_append.mp h2 with hb | hu
  · exact no_set_in_map_add _ _ _ v hb
  · exact no_set_in_map_add _ _ _ v hu

theorem borderBondOps_no_set (c : Ham2D K) (M : ℕ) (ψ1 : ℤ → K) (s : ℤ) :
    ∀ v, KOp.set s v ∉ borderBondOps c M ψ1 := by
  intro v hm
  unfold borderBondOps at hm
  rcases List.mem_flatMap.mp hm with ⟨d, _, h1⟩
  exact no_set_in_map_add _ _ _ v h1

theorem borderOnsiteOps_no_set (c : Ham2D K) (M : ℕ) (ψ1 : ℤ → K) (s : ℤ) :
    ∀ v, KOp.set s v ∉ borderOnsiteOps c M ψ1 := by
  intro v hm
  unfold borderOnsiteOps at hm
  rcases List.mem_flatMap.mp hm with ⟨d, _, h1⟩
  exact no_set_in_map_add _ _ _ v h1

end BlockLemmas

section TileEval

variable {K : Type} [Field K]

theorem sumAt_cells_add (cells : List ℕ) (g : ℕ → K) (s : ℕ) :
    sumAt (s : ℤ) (cells.map fun (i : ℕ) => KOp.add (i : ℤ) (g i)) =
      (cells.map fun i => if i = s then g i else 0).sum := by
  unfold sumAt
  rw [List.map_map]
  apply congrArg List.sum
  apply List.map_congr_left
  intro a _
  simp [Function.comp, Nat.cast_inj]

theorem applyOps_cells_set (cells : List ℕ) (g : ℕ → K) (f : ℤ → K) (s : ℕ) :
    applyOps f (cells.map fun (i : ℕ) => KOp.set (i : ℤ) (g i)) (s : ℤ) =
      if s ∈ cells then g s else f (s : ℤ) :=
  applyOps_set_map cells (fun n : ℕ => (n : ℤ)) g f s fun a b h => Nat.cast_injective h

theorem sumAt_tile_rows (c : Ham2D K) {x y io tx₀ ty₀ rx₀ ry₀ : ℕ}
    (hg : BulkGeom c x y io tx₀ ty₀ rx₀ ry₀) (G : ℕ → ℕ → K) :
    sumAt (cellIdx c x y io : ℤ)
      ((List.range c.S).flatMap fun r =>
        (rowCells c tx₀ ty₀ r io).map fun (i : ℕ) => KOp.add (i : ℤ) (G r i)) =
      G ry₀ (cellIdx c x y io) := by
  rw [sumAt_flatMap]
  have step : ∀ r ∈ List.range c.S,
      sumAt (cellIdx c x y io : ℤ)
        ((rowCells c tx₀ ty₀ r io).map fun (i : ℕ) => KOp.add (i : ℤ) (G r i)) =
      if r = ry₀ then G r (cellIdx c x y io) else 0 := by
    intro r hr
    rw [sumAt_cells_add, sum_ite_eq_mem _ (nodup_rowCells c tx₀ ty₀ r io) _ _]
    have hiff := mem_row_own c hg tx₀ ty₀ r io hg.htx hg.hty (List.mem_range.mp hr)
    by_cases hcase : r = ry₀
    · rw [if_pos (hiff.mpr ⟨rfl, rfl, hcase, rfl⟩), if_pos hcase]
    · rw [if_neg (fun hmem => hcase (hiff.mp hmem).2.2.1), if_neg hcase]
  rw [List.map_congr_left step, sum_ite_range, if_pos hg.hry]

theorem sumAt_tile_rows_other (c : Ham2D K) {x y io tx₀ ty₀ rx₀ ry₀ : ℕ}
    (hg : BulkGeom c x y io tx₀ ty₀ rx₀ ry₀) (tx ty io' : ℕ)
    (htx' : tx < c.lStr0) (hty' : ty < c.lStr1)
    (hne : ¬(tx = tx₀ ∧ ty = ty₀ ∧ io' = io)) (G : ℕ → ℕ → K) :
    sumAt (cellIdx c x y io : ℤ)
      ((List.range c.S).flatMap fun r =>
        (rowCells c tx ty r io').map fun (i : ℕ) => KOp.add (i : ℤ) (G r i)) = 0 := by
  rw [sumAt_flatMap]
  have step : ∀ r ∈ List.range c.S,
      sumAt (cellIdx c x y io : ℤ)
        ((rowCells c tx ty r io').map fun (i : ℕ) => KOp.add (i : ℤ) (G r i)) = 0 := by
    intro r hr
    rw [sumAt_cells_add]
    apply sum_ite_zero_of_not_mem
    intro hmem
    rcases (mem_row_own c hg tx ty r io' htx' hty' (List.mem_range.mp hr)).mp hmem with
      ⟨h1, h2, h3, h4⟩
    exact hne ⟨h1, h2, h4⟩
  rw [List.map_congr_left step]
  simp

theorem tileCells_map_eq_rows (c : Ham2D K) (tx ty io' : ℕ) (F : ℕ → KOp K) :
    (tileCellsList c tx ty io').map F =
      (List.range c.S).flatMap fun r => (rowCells c tx ty r io').map F := by
  unfold tileCellsList
  rw [List.map_flatMap]

end TileEval

section BlockSums

variable {K : Type} [Field K]

theorem sumAt_cells_set (cells : List ℕ) (g : ℕ → K) (s' : ℤ) :
    sumAt s' (cells.map fun (i : ℕ) => KOp.set (i : ℤ) (g i)) = 0 := by
  apply List.sum_eq_zero
  intro v hv
  rcases List.mem_map.mp hv with ⟨op, hop, he⟩
  rcases List.mem_map.mp hop with ⟨i, hi, he2⟩
  rw [← he, ← he2]

theorem sumAt_anderson_own (c : Ham2D K) (M : ℕ) (ψ1 : ℤ → K)
    {x y io tx₀ ty₀ rx₀ ry₀ : ℕ} (hg : BulkGeom c x y io tx₀ ty₀ rx₀ ry₀) :
    sumAt (cellIdx c x y io : ℤ) (andersonOps c M ψ1 tx₀ ty₀ io) =
      ((M : K) + 1) * andersonTermH c ψ1 x y io := by
  unfold andersonOps andersonTermH
  split_ifs with h1 h2
  · rw [tileCells_map_eq_rows, sumAt_tile_rows c hg]
    ring
  · rw [tileCells_map_eq_rows, sumAt_tile_rows c hg]
    ring
  · simp [sumAt]

theorem sumAt_anderson_other (c : Ham2D K) (M : ℕ) (ψ1 : ℤ → K)
    {x y io tx₀ ty₀ rx₀ ry₀ : ℕ} (hg : BulkGeom c x y io tx₀ ty₀ rx₀ ry₀)
    (tx ty io' : ℕ) (htx' : tx < c.lStr0) (hty' : ty < c.lStr1)
    (hne : ¬(tx = tx₀ ∧ ty = ty₀ ∧ io' = io)) :
    sumAt (cellIdx c x y io : ℤ) (andersonOps c M ψ1 tx ty io') = 0 := by
  unfold andersonOps
  split_ifs with h1 h2
  · rw [tileCells_map_eq_rows, sumAt_tile_rows_other c hg tx ty io' htx' hty' hne]
  · rw [tileCells_map_eq_rows, sumAt_tile_rows_other c hg tx ty io' htx' hty' hne]
  · simp [sumAt]

theorem sumAt_hops_own (c : Ham2D K) (M : ℕ) (ψ1 : ℤ → K)
    {x y io tx₀ ty₀ rx₀ ry₀ : ℕ} (hg : BulkGeom c x y io tx₀ ty₀ rx₀ ry₀) :
    sumAt (cellIdx c x y io : ℤ) (hopOps c M ψ1 tx₀ ty₀ io) =
      ((M : K) + 1) * hopTermH c ψ1 x y io := by
  unfold hopOps hopTermH
  rw [sumAt_flatMap]
  have step : ∀ ib ∈ List.range (c.nHop io),
      sumAt (cellIdx c x y io : ℤ)
        ((List.range c.S).flatMap fun r =>
          (rowCells c tx₀ ty₀ r io).map fun (i : ℕ) =>
            KOp.add (i : ℤ)
              (((M : K) + 1) * c.hopT ib io * ψ1 ((i : ℤ) + c.hopD ib io) *
                c.pex ((c.hopDx ib io : ℚ) * (c.gYrow (NGHOSTS + ty₀ * c.S + r) : ℚ) *
                  c.A01))) =
      ((M : K) + 1) * (c.hopT ib io * ψ1 ((cellIdx c x y io : ℤ) + c.hopD ib io) *
        c.pex ((c.hopDx ib io : ℚ) * (c.gYrow y : ℚ) * c.A01)) := by
    intro ib _
    rw [sumAt_tile_rows c hg, hg.hy]
    ring
  rw [List.map_congr_left step, List.sum_map_mul_left]

theorem sumAt_hops_other (c : Ham2D K) (M : ℕ) (ψ1 : ℤ → K)
    {x y io tx₀ ty₀ rx₀ ry₀ : ℕ} (hg : BulkGeom c x y io tx₀ ty₀ rx₀ ry₀)
    (tx ty io' : ℕ) (htx' : tx < c.lStr0) (hty' : ty < c.lStr1)
    (hne : ¬(tx = tx₀ ∧ ty = ty₀ ∧ io' = io)) :
    sumAt (cellIdx c x y io : ℤ) (hopOps c M ψ1 tx ty io') = 0 := by
  unfold hopOps
  rw [sumAt_flatMap]
  have step : ∀ ib ∈ List.range (c.nHop io'),
      sumAt (cellIdx c x y io : ℤ)
        ((List.range c.S).flatMap fun r =>
          (rowCells c tx ty r io').map fun (i : ℕ) =>
            KOp.add (i : ℤ)
              (((M : K) + 1) * c.hopT ib io' * ψ1 ((i : ℤ) + c.hopD ib io') *
                c.pex ((c.hopDx ib io' : ℚ) * (c.gYrow (NGHOSTS + ty * c.S + r) : ℚ) *
                  c.A01))) = 0 := by
    intro ib _
    rw [sumAt_tile_rows_other c hg tx ty io' htx' hty' hne]
  rw [List.map_congr_left step]
  simp

theorem sumAt_struct_eq (c : Ham2D K) (M : ℕ) (ψ1 : ℤ → K) (istr : ℕ) (s' : ℤ) :
    sumAt s' (structOps c M ψ1 istr) = ((M : K) + 1) * structTileSum c ψ1 istr s' := by
  unfold structOps structTileSum
  rw [sumAt_flatMap, ← List.sum_map_mul_left]
  apply congrArg List.sum
  apply List.map_congr_left
  intro d _
  rw [sumAt_flatMap, ← List.sum_map_mul_left]
  apply congrArg List.sum
  apply List.map_congr_left
  intro ip _
  rw [sumAt_append, mul_add]
  congr 1
  · rw [sumAt_map_add]
    have massage : ∀ b ∈ d.bonds,
        (if (ip : ℤ) + d.nodePos b.e1 = s' then
          ((M : K) + 1) * b.t * ψ1 ((ip : ℤ) + d.nodePos b.e2) *
            c.pex (sphase c ((ip : ℤ) + d.nodePos b.e1) ((ip : ℤ) + d.nodePos b.e2))
        else 0) =
        ((M : K) + 1) * (if (ip : ℤ) + d.nodePos b.e1 = s' then
          b.t * ψ1 ((ip : ℤ) + d.nodePos b.e2) *
            c.pex (sphase c ((ip : ℤ) + d.nodePos b.e1) ((ip : ℤ) + d.nodePos b.e2))
        else 0) := by
      intro b _
      by_cases hP : (ip : ℤ) + d.nodePos b.e1 = s' <;> simp [hP] <;> ring
    rw [List.map_congr_left massage, List.sum_map_mul_left]
  · rw [sumAt_map_add]
    have massage : ∀ u ∈ d.onsites,
        (if (ip : ℤ) + d.nodePos u.e = s' then
          ((M : K) + 1) * u.u * ψ1 ((ip : ℤ) + d.nodePos u.e)
        else 0) =
        ((M : K) + 1) * (if (ip : ℤ) + d.nodePos u.e = s' then
          u.u * ψ1 ((ip : ℤ) + d.nodePos u.e)
        else 0) := by
      intro u _
      by_cases hP : (ip : ℤ) + d.nodePos u.e = s' <;> simp [hP] <;> ring
    rw [List.map_congr_left massage, List.sum_map_mul_left]

theorem sumAt_border_eq (c : Ham2D K) (M : ℕ) (ψ1 : ℤ → K) (s' : ℤ) :
    sumAt s' (borderBondOps c M ψ1) + sumAt s' (borderOnsiteOps c M ψ1) =
      ((M : K) + 1) * borderSum c ψ1 s' := by
  unfold borderBondOps borderOnsiteOps borderSum
  rw [sumAt_flatMap, sumAt_flatMap, ← sum_map_add_fun, ← List.sum_map_mul_left]
  apply congrArg List.sum
  apply List.map_congr_left
  intro d _
  rw [sumAt_map_add, sumAt_map_add, mul_add]
  congr 1
  · have massage : ∀ b ∈ d.borderBonds,
        (if (b.i1 : ℤ) = s' then
          ((M : K) + 1) * b.t * ψ1 (b.i2 : ℤ) * c.pex (sphase c (b.i1 : ℤ) (b.i2 : ℤ))
        else 0) =
        ((M : K) + 1) * (if (b.i1 : ℤ) = s' then
          b.t * ψ1 (b.i2 : ℤ) * c.pex (sphase c (b.i1 : ℤ) (b.i2 : ℤ))
        else 0) := by
      intro b _
      by_cases hP : (b.i1 : ℤ) = s' <;> simp [hP] <;> ring
    rw [List.map_congr_left massage, List.sum_map_mul_left]
  · have massage : ∀ u ∈ d.borderOnsites,
        (if (u.i1 : ℤ) = s' then ((M : K) + 1) * u.u * ψ1 (u.i1 : ℤ) else 0) =
        ((M : K) + 1) * (if (u.i1 : ℤ) = s' then u.u * ψ1 (u.i1 : ℤ) else 0) := by
      intro u _
      by_cases hP : (u.i1 : ℤ) = s' <;> simp [hP] <;> ring
    rw [List.map_congr_left massage, List.sum_map_mul_left]

theorem structTileSum_zero (c : Ham2D K) (ψ1 : ℤ → K) (istr : ℕ) (s' : ℤ)
    (hs : s' ∉ structTargets c istr) : structTileSum c ψ1 istr s' = 0 := by
  unfold structTileSum
  apply List.sum_eq_zero
  intro v hv
  rcases List.mem_map.mp hv with ⟨d, hd, he⟩
  rw [← he]
  apply List.sum_eq_zero
  intro w hw
  rcases List.mem_map.mp hw with ⟨ip, hip, he2⟩
  rw [← he2]
  have hb : ∀ b ∈ d.bonds, (ip : ℤ) + d.nodePos b.e1 ≠ s' := by
    intro b hbm heq
    exact hs (List.mem_flatMap.mpr ⟨d, hd, List.mem_flatMap.mpr ⟨ip, hip,
      List.mem_append.mpr (Or.inl (List.mem_map.mpr ⟨b, hbm, heq⟩))⟩⟩)
  have hu : ∀ u ∈ d.onsites, (ip : ℤ) + d.nodePos u.e ≠ s' := by
    intro u hum heq
    exact hs (List.mem_flatMap.mpr ⟨d, hd, List.mem_flatMap.mpr ⟨ip, hip,
      List.mem_append.mpr (Or.inr (List.mem_map.mpr ⟨u, hum, heq⟩))⟩⟩)
  have e1 : (d.bonds.map fun b =>
      if (ip : ℤ) + d.nodePos b.e1 = s' then
        b.t * ψ1 ((ip : ℤ) + d.nodePos b.e2) *
          c.pex (sphase c ((ip : ℤ) + d.nodePos b.e1) ((ip : ℤ) + d.nodePos b.e2))
      else 0).sum = 0 := by
    apply List.sum_eq_zero
    intro v hv
    rcases List.mem_map.mp hv with ⟨b, hbm, he3⟩
    rw [← he3, if_neg (hb b hbm)]
  have e2 : (d.onsites.map fun u =>
      if (ip : ℤ) + d.nodePos u.e = s' then u.u * ψ1 ((ip : ℤ) + d.nodePos u.e)
      else 0).sum = 0 := by
    apply List.sum_eq_zero
    intro v hv
    rcases List.mem_map.mp hv with ⟨u, hum, he3⟩
    rw [← he3, if_neg (hu u hum)]
  rw [e1, e2, add_zero]

end BlockSums

section SweepEval

variable {K : Type} [Field K]

theorem tileOps_no_target (c : Ham2D K) (M : ℕ) (ψ1 ψ2 : ℤ → K)
    {x y io tx₀ ty₀ rx₀ ry₀ : ℕ} (hg : BulkGeom c x y io tx₀ ty₀ rx₀ ry₀)
    (tx ty : ℕ) (htx' : tx < c.lStr0) (hty' : ty < c.lStr1)
    (hne : ¬(tx = tx₀ ∧ ty = ty₀))
    (hstr : (cellIdx c x y io : ℤ) ∉ structTargets c (ty * c.lStr0 + tx))
    (hvac : cellIdx c x y io ∉ c.vacTile (ty * c.lStr0 + tx)) :
    ∀ op ∈ tileOps c M ψ1 ψ2 tx ty, op.target ≠ (cellIdx c x y io : ℤ) := by
  intro op hop
  unfold tileOps at hop
  have hcells : ∀ io', cellIdx c x y io ∉ tileCellsList c tx ty io' := by
    intro io' hmem
    rcases (mem_tile_own c hg tx ty io' htx' hty').mp hmem with ⟨e1, e2, _⟩
    exact hne ⟨e1, e2⟩
  rcases List.mem_append.mp hop with h1 | hvacm
  · rcases List.mem_append.mp h1 with horb | hstrm
    · rcases List.mem_flatMap.mp horb with ⟨io', _, hop2⟩
      rcases List.mem_append.mp hop2 with h2 | hhop
      · rcases List.mem_append.mp h2 with hinit | hand
        · by_cases hcm : c.cm (ty * c.lStr0 + tx) = true
          · rw [if_pos hcm] at hinit
            exact initOps_no_target c M ψ2 tx ty io' _ (hcells io') op hinit
          · rw [if_neg hcm] at hinit
            exact absurd hinit (List.not_mem_nil op)
        · exact andersonOps_no_target c M ψ1 tx ty io' _ (hcells io') op hand
      · exact hopOps_no_target c M ψ1 tx ty io' _ (hcells io') op hhop
    · exact structOps_no_target c M ψ1 _ _ hstr op hstrm
  · exact vacOps_no_target c _ _ hvac op hvacm

theorem applyOps_tile_own (c : Ham2D K) (M : ℕ) (ψ1 ψ2 : ℤ → K)
    {x y io tx₀ ty₀ rx₀ ry₀ : ℕ} (hg : BulkGeom c x y io tx₀ ty₀ rx₀ ry₀)
    (f : ℤ → K)
    (hcm : c.cm (ty₀ * c.lStr0 + tx₀) = true)
    (hvac : cellIdx c x y io ∉ c.vacTile (ty₀ * c.lStr0 + tx₀)) :
    applyOps f (tileOps c M ψ1 ψ2 tx₀ ty₀) (cellIdx c x y io : ℤ) =
      -(M : K) * ψ2 (cellIdx c x y io : ℤ) +
        ((M : K) + 1) * (andersonTermH c ψ1 x y io + hopTermH c ψ1 x y io) +
        ((M : K) + 1) *
          structTileSum c ψ1 (ty₀ * c.lStr0 + tx₀) (cellIdx c x y io : ℤ) := by
  unfold tileOps
  rw [applyOps_append, applyOps_append,
    applyOps_no_target _ _ _ (vacOps_no_target c (ty₀ * c.lStr0 + tx₀) _ hvac),
    applyOps_no_set _ _ _ (structOps_no_set c M ψ1 (ty₀ * c.lStr0 + tx₀) _),
    sumAt_struct_eq]
  have hoth : ∀ a ∈ List.range c.Orb, a ≠ io →
      ∀ op ∈ (if c.cm (ty₀ * c.lStr0 + tx₀) then initOps c M ψ2 tx₀ ty₀ a else []) ++
          andersonOps c M ψ1 tx₀ ty₀ a ++ hopOps c M ψ1 tx₀ ty₀ a,
        op.target ≠ (cellIdx c x y io : ℤ) := by
    intro a ha hne op hop
    have hcells : cellIdx c x y io ∉ tileCellsList c tx₀ ty₀ a := by
      intro hmem
      exact hne ((mem_tile_own c hg tx₀ ty₀ a hg.htx hg.hty).mp hmem).2.2
    rcases List.mem_append.mp hop with h2 | hhop
    · rcases List.mem_append.mp h2 with hinit | hand
      · rw [if_pos hcm] at hinit
        exact initOps_no_target c M ψ2 tx₀ ty₀ a _ hcells op hinit
      · exact andersonOps_no_target c M ψ1 tx₀ ty₀ a _ hcells op hand
    · exact hopOps_no_target c M ψ1 tx₀ ty₀ a _ hcells op hhop
  rw [applyOps_flatMap_one (List.range c.Orb) _ _ f io
    (List.mem_range.mpr hg.hio) (List.nodup_range _) hoth]
  rw [applyOps_append, applyOps_append, if_pos hcm,
    applyOps_no_set _ _ _ (hopOps_no_set c M ψ1 tx₀ ty₀ io _),
    sumAt_hops_own c M ψ1 hg,
    applyOps_no_set _ _ _ (andersonOps_no_set c M ψ1 tx₀ ty₀ io _),
    sumAt_anderson_own c M ψ1 hg]
  unfold initOps
  rw [applyOps_cells_set,
    if_pos ((mem_tile_own c hg tx₀ ty₀ io hg.htx hg.hty).mpr ⟨rfl, rfl, rfl⟩)]
  ring

theorem applyOps_sweep_cmTrue (c : Ham2D K) (M : ℕ) (ψ1 ψ2 : ℤ → K)
    {x y io tx₀ ty₀ rx₀ ry₀ : ℕ} (hg : BulkGeom c x y io tx₀ ty₀ rx₀ ry₀)
    (f : ℤ → K)
    (hcm : c.cm (ty₀ * c.lStr0 + tx₀) = true)
    (hn : NoVacWF c x y io tx₀ ty₀) :
    applyOps f (sweepOps c M ψ1 ψ2) (cellIdx c x y io : ℤ) =
      -(M : K) * ψ2 (cellIdx c x y io : ℤ) +
        ((M : K) + 1) * (andersonTermH c ψ1 x y io + hopTermH c ψ1 x y io) +
        ((M : K) + 1) *
          structTileSum c ψ1 (ty₀ * c.lStr0 + tx₀) (cellIdx c x y io : ℤ) := by
  have hforeign : ∀ ty < c.lStr1, ∀ tx < c.lStr0, ¬(tx = tx₀ ∧ ty = ty₀) →
      (cellIdx c x y io : ℤ) ∉ structTargets c (ty * c.lStr0 + tx) := by
    intro ty hty tx htx hne hmem
    have hfalse := hn.hst ty hty tx htx hne hmem
    rw [hcm] at hfalse
    exact Bool.noConfusion hfalse
  unfold sweepOps
  have houter : ∀ ty ∈ List.range c.lStr1, ty ≠ ty₀ →
      ∀ op ∈ (List.range c.lStr0).flatMap fun tx => tileOps c M ψ1 ψ2 tx ty,
        op.target ≠ (cellIdx c x y io : ℤ) := by
    intro ty hty hne op hop
    rcases List.mem_flatMap.mp hop with ⟨tx, htx, hop2⟩
    have hty' := List.mem_range.mp hty
    have htx' := List.mem_range.mp htx
    have hne2 : ¬(tx = tx₀ ∧ ty = ty₀) := fun h => hne h.2
    exact tileOps_no_target c M ψ1 ψ2 hg tx ty htx' hty' hne2
      (hforeign ty hty' tx htx' hne2)
      (hn.hnv ty hty' tx htx') op hop2
  rw [applyOps_flatMap_one (List.range c.lStr1) _ _ f ty₀
    (List.mem_range.mpr hg.hty) (List.nodup_range _) houter]
  have hinner : ∀ tx ∈ List.range c.lStr0, tx ≠ tx₀ →
      ∀ op ∈ tileOps c M ψ1 ψ2 tx ty₀, op.target ≠ (cellIdx c x y io : ℤ) := by
    intro tx htx hne op hop
    have htx' := List.mem_range.mp htx
    have hne2 : ¬(tx = tx₀ ∧ ty₀ = ty₀) := fun h => hne h.1
    exact tileOps_no_target c M ψ1 ψ2 hg tx ty₀ htx' hg.hty hne2
      (hforeign ty₀ hg.hty tx htx' hne2)
      (hn.hnv ty₀ hg.hty tx htx') op hop
  rw [applyOps_flatMap_one (List.range c.lStr0) _ _ f tx₀
    (List.mem_range.mpr hg.htx) (List.nodup_range _) hinner]
  exact applyOps_tile_own c M ψ1 ψ2 hg f hcm
    (hn.hnv ty₀ hg.hty tx₀ hg.htx)

theorem sweep_no_set (c : Ham2D K) (M : ℕ) (ψ1 ψ2 : ℤ → K)
    {x y io tx₀ ty₀ rx₀ ry₀ : ℕ} (hg : BulkGeom c x y io tx₀ ty₀ rx₀ ry₀)
    (hcmF : c.cm (ty₀ * c.lStr0 + tx₀) = false)
    (hnv : ∀ ty' < c.lStr1, ∀ tx' < c.lStr0,
      cellIdx c x y io ∉ c.vacTile (ty' * c.lStr0 + tx')) :
    ∀ v, KOp.set (cellIdx c x y io : ℤ) v ∉ sweepOps c M ψ1 ψ2 := by
  intro v hm
  unfold sweepOps at hm
  rcases List.mem_flatMap.mp hm with ⟨ty, hty, h1⟩
  rcases List.mem_flatMap.mp h1 with ⟨tx, htx, h2⟩
  have hty' := List.mem_range.mp hty
  have htx' := List.mem_range.mp htx
  unfold tileOps at h2
  rcases List.mem_append.mp h2 with h3 | hvacm
  · rcases List.mem_append.mp h3 with horb | hstrm
    · rcases List.mem_flatMap.mp horb with ⟨io', hio', h4⟩
      rcases List.mem_append.mp h4 with h5 | hhop
      · rcases List.mem_append.mp h5 with hinit | hand
        · by_cases hcm : c.cm (ty * c.lStr0 + tx) = true
          · rw [if_pos hcm] at hinit
            unfold initOps at hinit
            rcases List.mem_map.mp hinit with ⟨i, hi, he⟩
            have htg := congrArg KOp.target he
            simp only [KOp.target, Nat.cast_inj] at htg
            rw [htg] at hi
            rcases (mem_tile_own c hg tx ty io' htx' hty').mp hi with ⟨e1, e2, _⟩
            rw [e1, e2] at hcm
            rw [hcmF] at hcm
            exact Bool.noConfusion hcm
          · rw [if_neg hcm] at hinit
            exact absurd hinit (List.not_mem_nil _)
        · exact andersonOps_no_set c M ψ1 tx ty io' _ v hand
      · exact hopOps_no_set c M ψ1 tx ty io' _ v hhop
    · exact structOps_no_set c M ψ1 _ _ v hstrm
  · unfold vacOps at hvacm
    rcases List.mem_map.mp hvacm with ⟨k, hk, he⟩
    have htg := congrArg KOp.target he
    simp only [KOp.target, Nat.cast_inj] at htg
    rw [htg] at hk
    exact hnv ty hty' tx htx' hk

end SweepEval

section SweepSums

variable {K : Type} [Field K]

theorem sumAt_tileOps (c : Ham2D K) (M : ℕ) (ψ1 ψ2 : ℤ → K)
    {x y io tx₀ ty₀ rx₀ ry₀ : ℕ} (hg : BulkGeom c x y io tx₀ ty₀ rx₀ ry₀)
    (tx ty : ℕ) (htx' : tx < c.lStr0) (hty' : ty < c.lStr1) :
    sumAt (cellIdx c x y io : ℤ) (tileOps c M ψ1 ψ2 tx ty) =
      (if tx = tx₀ ∧ ty = ty₀ then
        ((M : K) + 1) * (andersonTermH c ψ1 x y io + hopTermH c ψ1 x y io) else 0) +
      ((M : K) + 1) * structTileSum c ψ1 (ty * c.lStr0 + tx) (cellIdx c x y io : ℤ) := by
  unfold tileOps
  rw [sumAt_append, sumAt_append, sumAt_struct_eq]
  have hvac0 : sumAt (cellIdx c x y io : ℤ)
      (vacOps c (ty * c.lStr0 + tx) : List (KOp K)) = 0 := by
    unfold vacOps
    exact sumAt_cells_set _ _ _
  rw [hvac0, add_zero, sumAt_flatMap]
  have step : ∀ io' ∈ List.range c.Orb,
      sumAt (cellIdx c x y io : ℤ)
        ((if c.cm (ty * c.lStr0 + tx) then initOps c M ψ2 tx ty io' else []) ++
          andersonOps c M ψ1 tx ty io' ++ hopOps c M ψ1 tx ty io') =
      if io' = io ∧ tx = tx₀ ∧ ty = ty₀ then
        ((M : K) + 1) * (andersonTermH c ψ1 x y io + hopTermH c ψ1 x y io) else 0 := by
    intro io' _
    rw [sumAt_append, sumAt_append]
    have hinit0 : sumAt (cellIdx c x y io : ℤ)
        (if c.cm (ty * c.lStr0 + tx) then initOps c M ψ2 tx ty io' else []) = 0 := by
      split_ifs
      · unfold initOps
        exact sumAt_cells_set _ _ _
      · simp [sumAt]
    rw [hinit0, zero_add]
    by_cases hown : io' = io ∧ tx = tx₀ ∧ ty = ty₀
    · obtain ⟨e1, e2, e3⟩ := hown
      subst e1
      subst e2
      subst e3
      rw [sumAt_anderson_own c M ψ1 hg, sumAt_hops_own c M ψ1 hg,
        if_pos ⟨rfl, rfl, rfl⟩]
      ring
    · have hne : ¬(tx = tx₀ ∧ ty = ty₀ ∧ io' = io) := by tauto
      rw [sumAt_anderson_other c M ψ1 hg tx ty io' htx' hty' hne,
        sumAt_hops_other c M ψ1 hg tx ty io' htx' hty' hne, if_neg hown]
      ring
  rw [List.map_congr_left step]
  by_cases hP : tx = tx₀ ∧ ty = ty₀
  · simp only [hP, and_true]
    rw [sum_ite_range c.Orb io _, if_pos hg.hio]
    simp
  · have hz : ∀ io' ∈ List.range c.Orb,
        (if io' = io ∧ tx = tx₀ ∧ ty = ty₀ then
          ((M : K) + 1) * (andersonTermH c ψ1 x y io + hopTermH c ψ1 x y io)
        else 0) = 0 := by
      intro io' _
      simp [hP]
    rw [List.map_congr_left hz, if_neg hP]
    simp

theorem sum_double_ite (n0 n1 tx₀ ty₀ : ℕ) (htx : tx₀ < n0) (hty : ty₀ < n1)
    (V : K) :
    ((List.range n1).map fun ty => ((List.range n0).map fun tx =>
      if tx = tx₀ ∧ ty = ty₀ then V else 0).sum).sum = V := by
  have inner : ∀ ty ∈ List.range n1,
      ((List.range n0).map fun tx => if tx = tx₀ ∧ ty = ty₀ then V else 0).sum =
        if ty = ty₀ then V else 0 := by
    intro ty _
    by_cases hy : ty = ty₀
    · subst hy
      simp only [and_true]
      rw [sum_ite_range n0 tx₀ fun _ => V, if_pos htx]
      simp
    · have hz : ∀ tx ∈ List.range n0,
          (if tx = tx₀ ∧ ty = ty₀ then V else 0) = 0 := by
        intro tx _
        simp [hy]
      rw [List.map_congr_left hz, if_neg hy]
      simp
  rw [List.map_congr_left inner, sum_ite_range n1 ty₀ fun _ => V, if_pos hty]

theorem sumAt_sweep (c : Ham2D K) (M : ℕ) (ψ1 ψ2 : ℤ → K)
    {x y io tx₀ ty₀ rx₀ ry₀ : ℕ} (hg : BulkGeom c x y io tx₀ ty₀ rx₀ ry₀) :
    sumAt (cellIdx c x y io : ℤ) (sweepOps c M ψ1 ψ2) =
      ((M : K) + 1) * (andersonTermH c ψ1 x y io + hopTermH c ψ1 x y io) +
        ((M : K) + 1) * ((List.range c.lStr1).map fun ty =>
          ((List.range c.lStr0).map fun tx =>
            structTileSum c ψ1 (ty * c.lStr0 + tx) (cellIdx c x y io : ℤ)).sum).sum := by
  unfold sweepOps
  rw [sumAt_flatMap]
  have step1 : ∀ ty ∈ List.range c.lStr1,
      sumAt (cellIdx c x y io : ℤ)
        ((List.range c.lStr0).flatMap fun tx => tileOps c M ψ1 ψ2 tx ty) =
      ((List.range c.lStr0).map fun tx =>
        (if tx = tx₀ ∧ ty = ty₀ then
          ((M : K) + 1) * (andersonTermH c ψ1 x y io + hopTermH c ψ1 x y io) else 0) +
        ((M : K) + 1) *
          structTileSum c ψ1 (ty * c.lStr0 + tx) (cellIdx c x y io : ℤ)).sum := by
    intro ty hty
    rw [sumAt_flatMap]
    apply congrArg List.sum
    apply List.map_congr_left
    intro tx htx
    exact sumAt_tileOps c M ψ1 ψ2 hg tx ty (List.mem_range.mp htx)
      (List.mem_range.mp hty)
  rw [List.map_congr_left step1]
  have split : ∀ ty ∈ List.range c.lStr1,
      ((List.range c.lStr0).map fun tx =>
        (if tx = tx₀ ∧ ty = ty₀ then
          ((M : K) + 1) * (andersonTermH c ψ1 x y io + hopTermH c ψ1 x y io) else 0) +
        ((M : K) + 1) *
          structTileSum c ψ1 (ty * c.lStr0 + tx) (cellIdx c x y io : ℤ)).sum =
      ((List.range c.lStr0).map fun tx =>
        if tx = tx₀ ∧ ty = ty₀ then
          ((M : K) + 1) * (andersonTermH c ψ1 x y io + hopTermH c ψ1 x y io)
        else 0).sum +
      ((M : K) + 1) * ((List.range c.lStr0).map fun tx =>
        structTileSum c ψ1 (ty * c.lStr0 + tx) (cellIdx c x y io : ℤ)).sum := by
    intro ty _
    rw [sum_map_add_fun, List.sum_map_mul_left]
  rw [List.map_congr_left split, sum_map_add_fun,
    sum_double_ite c.lStr0 c.lStr1 tx₀ ty₀ hg.htx hg.hty _,
    List.sum_map_mul_left]

end SweepSums

section Phase1Eval

variable {K : Type} [Field K]

theorem cmi_tile_decomp (c : Ham2D K) {x y io tx₀ ty₀ rx₀ ry₀ : ℕ}
    (hg : BulkGeom c x y io tx₀ ty₀ rx₀ ry₀) (istr : ℕ)
    (hb : istr < c.lStr0 * c.lStr1) (io' : ℕ)
    (hmem : cellIdx c x y io ∈ tileCellsList c (istr % c.lStr0) (istr / c.lStr0) io') :
    istr = ty₀ * c.lStr0 + tx₀ := by
  have h0 : 0 < c.lStr0 := by
    rcases Nat.eq_zero_or_pos c.lStr0 with h | h
    · rw [h] at hb
      simp at hb
    · exact h
  have htx' : istr % c.lStr0 < c.lStr0 := Nat.mod_lt istr h0
  have hty' : istr / c.lStr0 < c.lStr1 := Nat.div_lt_of_lt_mul hb
  rcases (mem_tile_own c hg _ _ io' htx' hty').mp hmem with ⟨e1, e2, _⟩
  calc istr = c.lStr0 * (istr / c.lStr0) + istr % c.lStr0 :=
        (Nat.div_add_mod istr c.lStr0).symm
    _ = ty₀ * c.lStr0 + tx₀ := by rw [e1, e2, mul_comm]

theorem phase1_no_target (c : Ham2D K) (M : ℕ) (ψ2 : ℤ → K)
    {x y io tx₀ ty₀ rx₀ ry₀ : ℕ} (hg : BulkGeom c x y io tx₀ ty₀ rx₀ ry₀)
    (hw : CrossMozaicWF c)
    (hcm : c.cm (ty₀ * c.lStr0 + tx₀) = true) :
    ∀ op ∈ phase1Ops c M ψ2, op.target ≠ (cellIdx c x y io : ℤ) := by
  intro op hop
  unfold phase1Ops at hop
  rcases List.mem_flatMap.mp hop with ⟨istr, histr, h1⟩
  rcases List.mem_flatMap.mp h1 with ⟨io', _, h2⟩
  apply initOps_no_target c M ψ2 _ _ io' _ ?_ op h2
  intro hmem
  have he := cmi_tile_decomp c hg istr (hw.hcmiR istr histr) io' hmem
  rw [he] at histr
  have hfalse := (hw.hcm _).mp histr
  rw [hfalse] at hcm
  exact Bool.noConfusion hcm

theorem phase1_eval (c : Ham2D K) (M : ℕ) (ψ2 : ℤ → K) (φ : ℤ → K)
    {x y io tx₀ ty₀ rx₀ ry₀ : ℕ} (hg : BulkGeom c x y io tx₀ ty₀ rx₀ ry₀)
    (hw : CrossMozaicWF c)
    (hmem : (ty₀ * c.lStr0 + tx₀) ∈ c.cmi) :
    applyOps φ (phase1Ops c M ψ2) (cellIdx c x y io : ℤ) =
      -(M : K) * ψ2 (cellIdx c x y io : ℤ) := by
  unfold phase1Ops
  have hother : ∀ istr ∈ c.cmi, istr ≠ ty₀ * c.lStr0 + tx₀ →
      ∀ op ∈ (List.range c.Orb).flatMap fun io' =>
          initOps c M ψ2 (istr % c.lStr0) (istr / c.lStr0) io',
        op.target ≠ (cellIdx c x y io : ℤ) := by
    intro istr histr hne op hop
    rcases List.mem_flatMap.mp hop with ⟨io', _, h2⟩
    apply initOps_no_target c M ψ2 _ _ io' _ ?_ op h2
    intro hcells
    exact hne (cmi_tile_decomp c hg istr (hw.hcmiR istr histr) io' hcells)
  rw [applyOps_flatMap_one c.cmi _ _ φ (ty₀ * c.lStr0 + tx₀) hmem hw.hnd hother]
  have h0 : 0 < c.lStr0 := by
    have := hg.htx
    omega
  have e1 : (ty₀ * c.lStr0 + tx₀) % c.lStr0 = tx₀ := by
    rw [mul_comm ty₀ c.lStr0, Nat.mul_add_mod, Nat.mod_eq_of_lt hg.htx]
  have e2 : (ty₀ * c.lStr0 + tx₀) / c.lStr0 = ty₀ := by
    rw [add_comm, mul_comm ty₀ c.lStr0, Nat.add_mul_div_left _ _ h0,
      Nat.div_eq_of_lt hg.htx, zero_add]
  rw [e1, e2]
  have hother2 : ∀ io' ∈ List.range c.Orb, io' ≠ io →
      ∀ op ∈ initOps c M ψ2 tx₀ ty₀ io', op.target ≠ (cellIdx c x y io : ℤ) := by
    intro io' _ hne op hop
    apply initOps_no_target c M ψ2 tx₀ ty₀ io' _ ?_ op hop
    intro hcells
    exact hne ((mem_tile_own c hg tx₀ ty₀ io' hg.htx hg.hty).mp hcells).2.2
  rw [applyOps_flatMap_one (List.range c.Orb) _ _ φ io
    (List.mem_range.mpr hg.hio) (List.nodup_range _) hother2]
  unfold initOps
  rw [applyOps_cells_set,
    if_pos ((mem_tile_own c hg tx₀ ty₀ io hg.htx hg.hty).mpr ⟨rfl, rfl, rfl⟩)]

end Phase1Eval

section MasterEval

variable {K : Type} [Field K]

theorem multiply_eval (c : Ham2D K) (M : ℕ) (ψ1 ψ2 φ : ℤ → K)
    {x y io tx₀ ty₀ rx₀ ry₀ : ℕ} (hg : BulkGeom c x y io tx₀ ty₀ rx₀ ry₀)
    (hw : CrossMozaicWF c) (hn : NoVacWF c x y io tx₀ ty₀) :
    multiplyColumn c M ψ1 ψ2 φ (cellIdx c x y io : ℤ) =
      ((M : K) + 1) * hamApply c ψ1 x y io -
        (M : K) * ψ2 (cellIdx c x y io : ℤ) := by
  unfold multiplyColumn multiplyOps
  rw [applyOps_append, applyOps_append, applyOps_append, applyOps_append,
    applyOps_no_set _ _ _ (borderOnsiteOps_no_set c M ψ1 _),
    applyOps_no_set _ _ _ (borderBondOps_no_set c M ψ1 _)]
  have hvwd : ∀ op ∈ (vwdOps c : List (KOp K)),
      op.target ≠ (cellIdx c x y io : ℤ) := by
    unfold vwdOps
    refine map_cast_no_target _ id _ ?_ _ (fun i hi he => hn.hnw (he ▸ hi))
    intro i
    rfl
  rw [applyOps_no_target _ _ _ hvwd]
  have hborder := sumAt_border_eq c M ψ1 (cellIdx c x y io : ℤ)
  by_cases hcm : c.cm (ty₀ * c.lStr0 + tx₀) = true
  · have hph : applyOps φ (phase1Ops c M ψ2) (cellIdx c x y io : ℤ) =
        φ (cellIdx c x y io : ℤ) :=
      applyOps_no_target _ _ _ (phase1_no_target c M ψ2 hg hw hcm)
    rw [applyOps_congr _ _ φ _ hph, applyOps_sweep_cmTrue c M ψ1 ψ2 hg φ hcm hn]
    have hforeign0 : ∀ ty ∈ List.range c.lStr1, ∀ tx ∈ List.range c.lStr0,
        structTileSum c ψ1 (ty * c.lStr0 + tx) (cellIdx c x y io : ℤ) =
          if tx = tx₀ ∧ ty = ty₀ then
            structTileSum c ψ1 (ty₀ * c.lStr0 + tx₀) (cellIdx c x y io : ℤ)
          else 0 := by
      intro ty hty tx htx
      by_cases hP : tx = tx₀ ∧ ty = ty₀
      · obtain ⟨e1, e2⟩ := hP
        subst e1
        subst e2
        simp
      · rw [if_neg hP]
        apply structTileSum_zero
        intro hmemT
        have hfalse := hn.hst ty (List.mem_range.mp hty) tx (List.mem_range.mp htx)
          hP hmemT
        rw [hfalse] at hcm
        exact Bool.noConfusion hcm
    have hcollapse : ((List.range c.lStr1).map fun ty =>
        ((List.range c.lStr0).map fun tx =>
          structTileSum c ψ1 (ty * c.lStr0 + tx) (cellIdx c x y io : ℤ)).sum).sum =
        structTileSum c ψ1 (ty₀ * c.lStr0 + tx₀) (cellIdx c x y io : ℤ) := by
      have houter : ∀ ty ∈ List.range c.lStr1,
          ((List.range c.lStr0).map fun tx =>
            structTileSum c ψ1 (ty * c.lStr0 + tx) (cellIdx c x y io : ℤ)).sum =
          ((List.range c.lStr0).map fun tx =>
            if tx = tx₀ ∧ ty = ty₀ then
              structTileSum c ψ1 (ty₀ * c.lStr0 + tx₀) (cellIdx c x y io : ℤ)
            else 0).sum := by
        intro ty hty
        apply congrArg List.sum
        exact List.map_congr_left fun tx htx => hforeign0 ty hty tx htx
      rw [List.map_congr_left houter,
        sum_double_ite c.lStr0 c.lStr1 tx₀ ty₀ hg.htx hg.hty _]
    unfold hamApply
    rw [hcollapse]
    rw [add_assoc, hborder]
    ring
  · have hcmF : c.cm (ty₀ * c.lStr0 + tx₀) = false := by
      revert hcm
      cases c.cm (ty₀ * c.lStr0 + tx₀) <;> simp
    have hmem : (ty₀ * c.lStr0 + tx₀) ∈ c.cmi := (hw.hcm _).mpr hcmF
    rw [applyOps_no_set _ _ _ (sweep_no_set c M ψ1 ψ2 hg hcmF hn.hnv),
      phase1_eval c M ψ2 φ hg hw hmem, sumAt_sweep c M ψ1 ψ2 hg]
    unfold hamApply
    rw [add_assoc, hborder]
    ring

end MasterEval

section Multiply2Eval

variable {K : Type} [Field K]

theorem bulk_inner_lt (a b S r : ℕ) (ha : a < b) (hr : r < S) :
    a * S + r < b * S := by
  have h1 : a * S + S ≤ b * S := by
    have h2 : (a + 1) * S ≤ b * S := Nat.mul_le_mul_right S (Nat.succ_le_of_lt ha)
    rw [add_mul, one_mul] at h2
    exact h2
  omega

theorem applyOps_set_cons (f : ℤ → K) (s : ℤ) (v : K) (rest : List (KOp K))
    (h : ∀ w, KOp.set s w ∉ rest) :
    applyOps f (KOp.set s v :: rest) s = v + sumAt s rest := by
  show applyOps (applyOp f (KOp.set s v)) rest s = v + sumAt s rest
  rw [applyOps_no_set _ _ _ h]
  simp [applyOp]

theorem cons_add_no_target (t s : ℤ) (v : K) {β : Type} (l : List β) (g : β → K)
    (hts : t ≠ s) :
    ∀ op ∈ (KOp.set t v :: l.map fun b => KOp.add t (g b)), op.target ≠ s := by
  intro op hop
  rcases List.mem_cons.mp hop with he | hm
  · rw [he]
    exact hts
  · rcases List.mem_map.mp hm with ⟨b, _, he⟩
    rw [← he]
    exact hts

theorem m2_ne (c : Ham2D K) {x y io tx₀ ty₀ rx₀ ry₀ : ℕ}
    (hg : BulkGeom c x y io tx₀ ty₀ rx₀ ry₀) (hNd : c.Nd = c.L0 * c.L1)
    (io' iy' ix' : ℕ) (hiy' : iy' < c.L1 - 2 * NGHOSTS)
    (hix' : ix' < c.L0 - 2 * NGHOSTS)
    (hne : ¬(io' = io ∧ iy' + NGHOSTS = y ∧ ix' + NGHOSTS = x)) :
    ((NGHOSTS + ix' + (NGHOSTS + iy') * c.L0 + io' * c.Nd : ℕ) : ℤ) ≠
      (cellIdx c x y io : ℤ) := by
  intro he
  have heN : NGHOSTS + ix' + (NGHOSTS + iy') * c.L0 + io' * c.Nd =
      cellIdx c x y io := Nat.cast_injective he
  have hesh : cellIdx c (NGHOSTS + ix') (NGHOSTS + iy') io' = cellIdx c x y io := by
    rw [← heN, hNd]
    unfold cellIdx
    ring
  have hL0' : NGHOSTS + ix' < c.L0 := by omega
  have hL1' : NGHOSTS + iy' < c.L1 := by omega
  rcases cellIdx_inj c _ _ _ _ _ _ hL0' (bulk_x_lt c hg) hL1' (bulk_y_lt c hg) hesh
    with ⟨e1, e2, e3⟩
  exact hne ⟨e3, by omega, by omega⟩

theorem multiply2_eval (c : Ham2D K) (M : ℕ) (ψ1 ψ2 φ : ℤ → K)
    {x y io tx₀ ty₀ rx₀ ry₀ : ℕ} (hg : BulkGeom c x y io tx₀ ty₀ rx₀ ry₀)
    (hNd : c.Nd = c.L0 * c.L1) :
    multiply2Column c M ψ1 ψ2 φ (cellIdx c x y io : ℤ) =
      -(M : K) * ψ2 (cellIdx c x y io : ℤ) +
        ((M : K) + 1) * ((List.range (c.nHop io)).map fun ib =>
          c.hopT ib io * ψ1 ((cellIdx c x y io : ℤ) + c.hopD ib io)).sum := by
  have hxge : NGHOSTS ≤ x := by
    have := hg.hx
    omega
  have hyge : NGHOSTS ≤ y := by
    have := hg.hy
    omega
  have hxin : x - NGHOSTS < c.L0 - 2 * NGHOSTS := by
    have h1 := bulk_inner_lt tx₀ c.lStr0 c.S rx₀ hg.htx hg.hrx
    have h2 := hg.hx
    have h3 := hg.hL0
    omega
  have hyin : y - NGHOSTS < c.L1 - 2 * NGHOSTS := by
    have h1 := bulk_inner_lt ty₀ c.lStr1 c.S ry₀ hg.hty hg.hry
    have h2 := hg.hy
    have h3 := hg.hL1
    omega
  unfold multiply2Column multiply2Ops
  refine ((applyOps_flatMap_one _ _ _ _ io (List.mem_range.mpr hg.hio)
    (List.nodup_range _) ?_).trans ?_)
  · intro a _ hne op hop
    rcases List.mem_flatMap.mp hop with ⟨iy', hiy', h1⟩
    rcases List.mem_flatMap.mp h1 with ⟨ix', hix', h2⟩
    exact cons_add_no_target _ _ _ _ _
      (m2_ne c hg hNd a iy' ix' (List.mem_range.mp hiy') (List.mem_range.mp hix')
        fun h => hne h.1) op h2
  refine ((applyOps_flatMap_one _ _ _ _ (y - NGHOSTS) (List.mem_range.mpr hyin)
    (List.nodup_range _) ?_).trans ?_)
  · intro iy' hiy' hne op hop
    rcases List.mem_flatMap.mp hop with ⟨ix', hix', h2⟩
    refine cons_add_no_target _ _ _ _ _
      (m2_ne c hg hNd io iy' ix' (List.mem_range.mp hiy') (List.mem_range.mp hix')
        ?_) op h2
    intro h
    have h2' := h.2.1
    apply hne
    omega
  refine ((applyOps_flatMap_one _ _ _ _ (x - NGHOSTS) (List.mem_range.mpr hxin)
    (List.nodup_range _) ?_).trans ?_)
  · intro ix' hix' hne op hop
    refine cons_add_no_target _ _ _ _ _
      (m2_ne c hg hNd io (y - NGHOSTS) ix' hyin (List.mem_range.mp hix') ?_) op hop
    intro h
    have h2' := h.2.2
    apply hne
    omega
  have hown : ((NGHOSTS + (x - NGHOSTS) + (NGHOSTS + (y - NGHOSTS)) * c.L0 +
      io * c.Nd : ℕ) : ℤ) = (cellIdx c x y io : ℤ) := by
    have hN : NGHOSTS + (x - NGHOSTS) + (NGHOSTS + (y - NGHOSTS)) * c.L0 +
        io * c.Nd = cellIdx c x y io := by
      have hxx : NGHOSTS + (x - NGHOSTS) = x := by omega
      have hyy : NGHOSTS + (y - NGHOSTS) = y := by omega
      rw [hxx, hyy, hNd]
      unfold cellIdx
      ring
    exact congrArg (fun n : ℕ => (n : ℤ)) hN
  rw [hown, applyOps_set_cons _ _ _ _ (no_set_map_add _ _ _ _), sumAt_map_add]
  have hcollapse : ∀ ib ∈ List.range (c.nHop io),
      (if (cellIdx c x y io : ℤ) = (cellIdx c x y io : ℤ) then
        ((M : K) + 1) * c.hopT ib io *
          ψ1 ((cellIdx c x y io : ℤ) + c.hopD ib io)
      else 0) =
      ((M : K) + 1) * (c.hopT ib io *
        ψ1 ((cellIdx c x y io : ℤ) + c.hopD ib io)) := by
    intro ib _
    rw [if_pos rfl, mul_assoc]
  rw [List.map_congr_left hcollapse, List.sum_map_mul_left]

end Multiply2Eval

section RingBuffer

variable {K : Type} [Field K]

theorem multiplyKPM_new (c : Ham2D K) (M : ℕ) (st : KPMState K) :
    (multiplyKPM c M st).cols ((st.idx + 1) % st.memory) =
      multiplyColumn c M
        (st.cols ((st.memory + (st.idx + 1) % st.memory - 1) % st.memory))
        (st.cols ((st.memory + (st.idx + 1) % st.memory - 2) % st.memory))
        (st.cols ((st.idx + 1) % st.memory)) := by
  unfold multiplyKPM
  simp

theorem multiplyKPM_frame (c : Ham2D K) (M : ℕ) (st : KPMState K) (j : ℕ)
    (hj : j ≠ (st.idx + 1) % st.memory) :
    (multiplyKPM c M st).cols j = st.cols j := by
  unfold multiplyKPM
  simp [hj]

theorem pred_ne (m a k : ℕ) (hm : 3 ≤ m) (ha : a < m) (hk : k = 1 ∨ k = 2) :
    (m + a - k) % m ≠ a := by
  rcases Nat.lt_or_ge a k with h | h
  · rw [Nat.mod_eq_of_lt (by omega)]
    omega
  · have he : m + a - k = m + (a - k) := by omega
    rw [he, Nat.add_mod_left, Nat.mod_eq_of_lt (by omega)]
    omega

end RingBuffer

/-- C1: for every `MULT` (the theorem is proved for every natural `M`, which
covers the claimed `MULT ∈ {0,1}`) and every ring-buffer state, `Multiply`
writes into the newly current slot, at every bulk site of a well-formed
tiling (`BulkGeom`), with the cross-mozaic discipline (`CrossMozaicWF`) and
no vacancy naming the site (`NoVacWF`), the value
`(MULT+1)·H·ψ₋₁ − MULT·ψ₋₂`, where `H` (`hamApply`) comprises the Anderson
on-site term, the regular hoppings with Peierls phase, the structural
disorder and the border terms, and `ψ₋₁`, `ψ₋₂` are the predecessor
slots. -/
theorem claim_C1 (c : Ham2D ℂ) (M : ℕ) (st : KPMState ℂ)
    (x y io tx₀ ty₀ rx₀ ry₀ : ℕ)
    (hg : BulkGeom c x y io tx₀ ty₀ rx₀ ry₀)
    (hw : CrossMozaicWF c) (hn : NoVacWF c x y io tx₀ ty₀) :
    (multiplyKPM c M st).cols ((st.idx + 1) % st.memory) (cellIdx c x y io : ℤ) =
      ((M : ℂ) + 1) *
          hamApply c
            (st.cols ((st.memory + (st.idx + 1) % st.memory - 1) % st.memory))
            x y io -
        (M : ℂ) *
          st.cols ((st.memory + (st.idx + 1) % st.memory - 2) % st.memory)
            (cellIdx c x y io : ℤ) := by
  rw [multiplyKPM_new c M st]
  exact multiply_eval c M _ _ _ hg hw hn

theorem claim_C1_witness :
    BulkGeom (cexHam ℂ) 2 2 0 0 0 0 0 ∧
    CrossMozaicWF (cexHam ℂ) ∧
    NoVacWF (cexHam ℂ) 2 2 0 0 0 ∧
    (multiplyKPM (cexHam ℂ) 1 ⟨10, 0, fun _ _ => 1⟩).cols 1
        (cellIdx (cexHam ℂ) 2 2 0 : ℤ) =
      (((1 : ℕ) : ℂ) + 1) * hamApply (cexHam ℂ) (fun _ => 1) 2 2 0 -
        ((1 : ℕ) : ℂ) * 1 := by
  have hg : BulkGeom (cexHam ℂ) 2 2 0 0 0 0 0 :=
    ⟨by decide, by decide, by decide, by decide, by decide, by decide, by decide,
      by decide, by decide⟩
  have hw : CrossMozaicWF (cexHam ℂ) := by
    refine ⟨?_, ?_, ?_⟩
    · intro τ
      constructor
      · intro h
        exact absurd h (List.not_mem_nil τ)
      · intro h
        exact Bool.noConfusion h
    · intro τ h
      exact absurd h (List.not_mem_nil τ)
    · exact List.nodup_nil
  have hn : NoVacWF (cexHam ℂ) 2 2 0 0 0 :=
    ⟨by decide, by decide, by decide⟩
  exact ⟨hg, hw, hn, claim_C1 (cexHam ℂ) 1 ⟨10, 0, fun _ _ => 1⟩ 2 2 0 0 0 0 0
    hg hw hn⟩

theorem vwd_final {K : Type} [Field K] (c : Ham2D K) (M : ℕ) (ψ1 ψ2 φ : ℤ → K)
    (s : ℕ) (hs : s ∈ c.vwd) :
    multiplyColumn c M ψ1 ψ2 φ (s : ℤ) =
      ((M : K) + 1) * borderSum c ψ1 (s : ℤ) := by
  unfold multiplyColumn multiplyOps
  rw [applyOps_append, applyOps_append, applyOps_append, applyOps_append,
    applyOps_no_set _ _ _ (borderOnsiteOps_no_set c M ψ1 _),
    applyOps_no_set _ _ _ (borderBondOps_no_set c M ψ1 _)]
  have hv : ∀ f : ℤ → K, applyOps f (vwdOps c) (s : ℤ) = 0 := by
    intro f
    unfold vwdOps
    rw [applyOps_cells_set c.vwd (fun _ => 0) f s, if_pos hs]
  rw [hv, add_assoc, sumAt_border_eq c M ψ1 (s : ℤ)]
  ring

/-- C3 (amended): in `Multiply` the `vacancies_with_defects` zeroing runs
BEFORE the border bond and border on-site loops, not after every arithmetic
contribution; a site on that list therefore ends the call holding
`(MULT+1)` times the border contributions targeting it — not necessarily
zero. -/
theorem claim_C3 (c : Ham2D ℂ) (M : ℕ) (ψ1 ψ2 φ : ℤ → ℂ) (s : ℕ)
    (hs : s ∈ c.vwd) :
    multiplyColumn c M ψ1 ψ2 φ (s : ℤ) =
      ((M : ℂ) + 1) * borderSum c ψ1 (s : ℤ) :=
  vwd_final c M ψ1 ψ2 φ s hs

theorem claim_C3_witness :
    12 ∈ (cexHam3 ℂ).vwd ∧
    multiplyColumn (cexHam3 ℂ) 1 (fun _ => 1) (fun _ => 1) (fun _ => 1)
        ((12 : ℕ) : ℤ) =
      (((1 : ℕ) : ℂ) + 1) * borderSum (cexHam3 ℂ) (fun _ => 1) ((12 : ℕ) : ℤ) :=
  ⟨by decide,
    claim_C3 (cexHam3 ℂ) 1 (fun _ => 1) (fun _ => 1) (fun _ => 1) 12 (by decide)⟩

/-- C3 counterexample: in `cexHam3` site `12` is named both in
`vacancies_with_defects` and as the target of a border on-site term, yet the
slot written by `Multiply` holds `2`, not zero, when the call returns — the
border loops run after the zeroing. -/
theorem claim_C3_counterexample :
    12 ∈ (cexHam3 ℚ).vwd ∧
    ((12 : ℕ) : ℤ) ∈ borderTargets (cexHam3 ℚ) ∧
    multiplyColumn (cexHam3 ℚ) 1 (fun _ => 1) (fun _ => 1) (fun _ => 1)
      ((12 : ℕ) : ℤ) ≠ 0 := by
  refine ⟨by decide, by decide, ?_⟩
  rw [vwd_final (cexHam3 ℚ) 1 (fun _ => 1) (fun _ => 1) (fun _ => 1) 12 (by decide)]
  have hb : borderSum (cexHam3 ℚ) (fun _ => (1 : ℚ)) ((12 : ℕ) : ℤ) = 1 := by
    simp [borderSum, cexHam3, cexDefect]
  rw [hb]
  norm_num

/-- C4: on every Hamiltonian with no Anderson disorder, no structural
disorder, no vacancies and no magnetic field, the general tiled path
`Multiply` and the simple path `Multiply2` write the same value into the new
slot at every bulk site, whatever the two columns' previous contents. -/
theorem claim_C4 (c : Ham2D ℂ) (M : ℕ) (ψ1 ψ2 φ φ2 : ℤ → ℂ)
    (x y io tx₀ ty₀ rx₀ ry₀ : ℕ) (hg : BulkGeom c x y io tx₀ ty₀ rx₀ ry₀)
    (hNd : c.Nd = c.L0 * c.L1)
    (hand : ∀ io', c.andersonAddr io' < -1)
    (hdef : c.defects = [])
    (hvac : ∀ τ, c.vacTile τ = [])
    (hvwd : c.vwd = [])
    (hcmi : c.cmi = [])
    (hcmT : ∀ τ, c.cm τ = true)
    (hA : c.A01 = 0)
    (hpex : c.pex 0 = 1) :
    multiplyColumn c M ψ1 ψ2 φ (cellIdx c x y io : ℤ) =
      multiply2Column c M ψ1 ψ2 φ2 (cellIdx c x y io : ℤ) := by
  have hw : CrossMozaicWF c := by
    refine ⟨?_, ?_, ?_⟩
    · intro τ
      rw [hcmi]
      constructor
      · intro h
        exact absurd h (List.not_mem_nil τ)
      · intro h
        rw [hcmT τ] at h
        exact Bool.noConfusion h
    · intro τ h
      rw [hcmi] at h
      exact absurd h (List.not_mem_nil τ)
    · rw [hcmi]
      exact List.nodup_nil
  have hn : NoVacWF c x y io tx₀ ty₀ := by
    refine ⟨?_, ?_, ?_⟩
    · intro ty' _ tx' _ _ hmem
      unfold structTargets at hmem
      rw [hdef] at hmem
      exact absurd hmem (List.not_mem_nil _)
    · intro ty' _ tx' _
      rw [hvac]
      exact List.not_mem_nil _
    · rw [hvwd]
      exact List.not_mem_nil _
  rw [multiply_eval c M ψ1 ψ2 φ hg hw hn, multiply2_eval c M ψ1 ψ2 φ2 hg hNd]
  unfold hamApply
  have hand0 : andersonTermH c ψ1 x y io = 0 := by
    unfold andersonTermH
    have h1 : ¬(0 ≤ c.andersonAddr io) := by
      have := hand io
      omega
    have h2 : ¬(c.andersonAddr io = -1) := by
      have := hand io
      omega
    rw [if_neg h1, if_neg h2]
  have hstruct0 : ∀ istr, structTileSum c ψ1 istr (cellIdx c x y io : ℤ) = 0 := by
    intro istr
    unfold structTileSum
    rw [hdef]
    simp
  have hb0 : borderSum c ψ1 (cellIdx c x y io : ℤ) = 0 := by
    unfold borderSum
    rw [hdef]
    simp
  have hdbl : ((List.range c.lStr1).map fun ty =>
      ((List.range c.lStr0).map fun tx =>
        structTileSum c ψ1 (ty * c.lStr0 + tx) (cellIdx c x y io : ℤ)).sum).sum = 0 := by
    apply List.sum_eq_zero
    intro v hv
    rcases List.mem_map.mp hv with ⟨ty, _, he⟩
    rw [← he]
    apply List.sum_eq_zero
    intro w hw2
    rcases List.mem_map.mp hw2 with ⟨tx, _, he2⟩
    rw [← he2, hstruct0]
  have hhop : hopTermH c ψ1 x y io = ((List.range (c.nHop io)).map fun ib =>
      c.hopT ib io * ψ1 ((cellIdx c x y io : ℤ) + c.hopD ib io)).sum := by
    unfold hopTermH
    apply congrArg List.sum
    apply List.map_congr_left
    intro ib _
    rw [hA, mul_zero, hpex, mul_one]
  rw [hand0, hdbl, hb0, hhop]
  ring

theorem claim_C4_witness :
    multiplyColumn (cexHam ℂ) 1 (fun _ => 1) (fun _ => 1) (fun _ => 1)
        (cellIdx (cexHam ℂ) 2 2 0 : ℤ) =
      multiply2Column (cexHam ℂ) 1 (fun _ => 1) (fun _ => 1) (fun _ => 0)
        (cellIdx (cexHam ℂ) 2 2 0 : ℤ) := by
  have hand : ∀ io', (cexHam ℂ).andersonAddr io' < -1 := by
    intro io'
    show (-2 : ℤ) < -1
    decide
  exact claim_C4 (cexHam ℂ) 1 (fun _ => 1) (fun _ => 1) (fun _ => 1) (fun _ => 0)
    2 2 0 0 0 0 0
    ⟨by decide, by decide, by decide, by decide, by decide, by decide, by decide,
      by decide, by decide⟩
    (by decide) hand rfl (fun _ => rfl) rfl rfl (fun _ => rfl) rfl rfl

/-- C10 (amended): `Multiply` advances the ring index by exactly one modulo
`memory` and writes only the new slot; the two predecessor slots are
untouched PROVIDED the buffer holds at least three columns — with
`memory = 2` the slot read back as `ψ₋₂` is the slot that was just
written. -/
theorem claim_C10 (c : Ham2D ℂ) (M : ℕ) (st : KPMState ℂ)
    (hmem : 3 ≤ st.memory) :
    (multiplyKPM c M st).idx = (st.idx + 1) % st.memory ∧
    (∀ j, j ≠ (st.idx + 1) % st.memory →
      (multiplyKPM c M st).cols j = st.cols j) ∧
    (multiplyKPM c M st).cols
        ((st.memory + (st.idx + 1) % st.memory - 1) % st.memory) =
      st.cols ((st.memory + (st.idx + 1) % st.memory - 1) % st.memory) ∧
    (multiplyKPM c M st).cols
        ((st.memory + (st.idx + 1) % st.memory - 2) % st.memory) =
      st.cols ((st.memory + (st.idx + 1) % st.memory - 2) % st.memory) := by
  have hm0 : 0 < st.memory := by omega
  have ha : (st.idx + 1) % st.memory < st.memory := Nat.mod_lt _ hm0
  refine ⟨rfl, fun j hj => multiplyKPM_frame c M st j hj, ?_, ?_⟩
  · exact multiplyKPM_frame c M st _
      (pred_ne st.memory ((st.idx + 1) % st.memory) 1 hmem ha (Or.inl rfl))
  · exact multiplyKPM_frame c M st _
      (pred_ne st.memory ((st.idx + 1) % st.memory) 2 hmem ha (Or.inr rfl))

theorem claim_C10_witness :
    3 ≤ (⟨3, 0, fun _ _ => 0⟩ : KPMState ℂ).memory ∧
    (multiplyKPM (cexHam ℂ) 1 ⟨3, 0, fun _ _ => 0⟩).idx = 1 ∧
    (multiplyKPM (cexHam ℂ) 1 ⟨3, 0, fun _ _ => 0⟩).cols 0 =
      (⟨3, 0, fun _ _ => 0⟩ : KPMState ℂ).cols 0 ∧
    (multiplyKPM (cexHam ℂ) 1 ⟨3, 0, fun _ _ => 0⟩).cols 2 =
      (⟨3, 0, fun _ _ => 0⟩ : KPMState ℂ).cols 2 := by
  have h := claim_C10 (cexHam ℂ) 1 ⟨3, 0, fun _ _ => 0⟩ (by decide)
  exact ⟨by decide, h.1, h.2.2.1, h.2.2.2⟩

/-- C10 counterexample: with `memory = 2` (as dispatched for a plain
Chebyshev run needing two columns), the ring slot holding `ψ₋₂` after
`inc_index` is exactly the slot `Multiply` writes: starting from columns
identically `1`, the `ψ₋₂` slot holds `−1 ≠ 1` at site `12` when the call
returns, so the predecessor columns are NOT always bit-for-bit unchanged. -/
theorem claim_C10_counterexample :
    ((2 + (0 + 1) % 2 - 2) % 2 = (0 + 1) % 2) ∧
    (multiplyKPM (cexHam ℚ) 1 ⟨2, 0, fun _ _ => 1⟩).cols
        ((2 + (0 + 1) % 2 - 2) % 2) (cellIdx (cexHam ℚ) 2 2 0 : ℤ) ≠
      (⟨2, 0, fun _ _ => 1⟩ : KPMState ℚ).cols ((2 + (0 + 1) % 2 - 2) % 2)
        (cellIdx (cexHam ℚ) 2 2 0 : ℤ) := by
  refine ⟨rfl, ?_⟩
  have hg : BulkGeom (cexHam ℚ) 2 2 0 0 0 0 0 :=
    ⟨by decide, by decide, by decide, by decide, by decide, by decide, by decide,
      by decide, by decide⟩
  have hw : CrossMozaicWF (cexHam ℚ) := by
    refine ⟨?_, ?_, ?_⟩
    · intro τ
      constructor
      · intro h
        exact absurd h (List.not_mem_nil τ)
      · intro h
        exact Bool.noConfusion h
    · intro τ h
      exact absurd h (List.not_mem_nil τ)
    · exact List.nodup_nil
  have hn : NoVacWF (cexHam ℚ) 2 2 0 0 0 :=
    ⟨by decide, by decide, by decide⟩
  have he : (multiplyKPM (cexHam ℚ) 1 ⟨2, 0, fun _ _ => 1⟩).cols
      ((2 + (0 + 1) % 2 - 2) % 2) (cellIdx (cexHam ℚ) 2 2 0 : ℤ) =
      (((1 : ℕ) : ℚ) + 1) * hamApply (cexHam ℚ) (fun _ => 1) 2 2 0 -
        ((1 : ℕ) : ℚ) * 1 :=
    (congrFun (multiplyKPM_new (cexHam ℚ) 1 ⟨2, 0, fun _ _ => 1⟩) _).trans
      (multiply_eval (cexHam ℚ) 1 _ _ _ hg hw hn)
  rw [he]
  have hham : hamApply (cexHam ℚ) (fun _ => (1 : ℚ)) 2 2 0 = 0 := by
    simp [hamApply, andersonTermH, hopTermH, structTileSum, borderSum, cexHam]
  rw [hham]
  show (((1 : ℕ) : ℚ) + 1) * 0 - ((1 : ℕ) : ℚ) * 1 ≠ 1
  norm_num
